import Mathlib

/-!
Verification development for the vobject library (iCalendar/vCard
contentline parser and serializer).

Strings are modelled as `List Char` (`Str`).  Rust's `str::replace`
(left-to-right, non-overlapping) is modelled by `replaceList`.
The peg grammar is modelled by recursive-descent functions with PEG
semantics (ordered choice, greedy possessive repetition).  Recursive
rules take a fuel argument so that they are structurally recursive and
reduce definitionally; the fuel supplied by the wrappers and by the
public entry point `parse_component` is at least the input length,
which the recursion can never exhaust, since every recursive call
consumes input (congruence lemmas below make the fuel invisible to the
proofs).  `HashMap` is modelled by an association list in insertion
order: buckets keep per-name insertion order (the committed
guarantee), and list order stands in for the map's unspecified
iteration order.  The peg engine's error message is modelled by an
opaque message, since the claims depend only on failure, never on the
message text.
-/

set_option maxHeartbeats 1000000

abbrev Str := List Char

/-- Rust `str::replace`, fuelled so that it reduces definitionally:
replace all non-overlapping occurrences of pattern `p` by `r`,
scanning left to right and continuing after each replacement.  The
fuel never runs out when it is at least the input length (each step
consumes at least one character). -/
def replaceFuel (p r : Str) : Nat → Str → Str
  | _, [] => []
  | 0, s => s
  | fuel + 1, c :: cs =>
    if p.isPrefixOf (c :: cs) then
      r ++ replaceFuel p r fuel (cs.drop (p.length - 1))
    else c :: replaceFuel p r fuel cs

/-- Rust `str::replace`. -/
def replaceList (p r : Str) (s : Str) : Str := replaceFuel p r s.length s

/-- Source `escape_chars`: six chained `replace` calls, in order
`\N -> newline`, `\ -> \\`, `; -> \;`, `, -> \,`, CRLF -> `\n`,
LF -> `\n`. -/
def escape_chars (s : Str) : Str :=
  replaceList ['\n'] ['\\', 'n']
    (replaceList ['\r', '\n'] ['\\', 'n']
      (replaceList [','] ['\\', ',']
        (replaceList [';'] ['\\', ';']
          (replaceList ['\\'] ['\\', '\\']
            (replaceList ['\\', 'N'] ['\n'] s)))))

/-- Source `unescape_chars`: six chained `replace` calls, in order
`\N -> \n` (two literal characters), CRLF -> LF, `\n -> ` LF,
`\, -> ,`, `\; -> ;`, `\\ -> \`. -/
def unescape_chars (s : Str) : Str :=
  replaceList ['\\', '\\'] ['\\']
    (replaceList ['\\', ';'] [';']
      (replaceList ['\\', ','] [',']
        (replaceList ['\\', 'n'] ['\n']
          (replaceList ['\r', '\n'] ['\n']
            (replaceList ['\\', 'N'] ['\\', 'n'] s)))))

/-- Source `unfold_lines`: remove the six soft line-break spellings,
in source order. -/
def unfold_lines (s : Str) : Str :=
  replaceList ['\r', '\t'] []
    (replaceList ['\r', ' '] []
      (replaceList ['\n', '\t'] []
        (replaceList ['\n', ' '] []
          (replaceList ['\r', '\n', '\t'] []
            (replaceList ['\r', '\n', ' '] [] s)))))

/-- Loop body of `fold_line`: push each character, and after the
character at enumerate index `i` with `i != 0 && i % 75 == 0` push
`"\r\n "`. -/
def foldAux : Str → Nat → Str
  | [], _ => []
  | c :: cs, i =>
    c :: (if i ≠ 0 ∧ i % 75 = 0 then '\r' :: '\n' :: ' ' :: foldAux cs (i + 1)
          else foldAux cs (i + 1))

/-- Source `fold_line`. -/
def fold_line (s : Str) : Str := foldAux s 0

/-- A property: parameter map (association list modelling the
`HashMap`), raw (escaped) value, optional group. -/
structure Property where
  params : List (Str × Str)
  raw_value : Str
  prop_group : Option Str
deriving DecidableEq

/-- Source `Property::new`: store the escaped form of a logical
value. -/
def Property.new (value : Str) : Property :=
  { params := [], raw_value := escape_chars value, prop_group := none }

/-- Source `Property::value_as_string`: the unescaped value. -/
def Property.value_as_string (p : Property) : Str :=
  unescape_chars p.raw_value

/-- A component: name, property map from name to bucket of properties
(association list modelling the `HashMap<String, Vec<Property>>`),
subcomponents. -/
structure Component where
  name : Str
  props : List (Str × List Property)
  subcomponents : List Component

/-- Source `Component::new`. -/
def Component.new (name : Str) : Component :=
  { name := name, props := [], subcomponents := [] }

/-- Association-list lookup (model of `HashMap::get`). -/
def lookupKey {α : Type} : List (Str × α) → Str → Option α
  | [], _ => none
  | (k, v) :: rest, key => if k = key then some v else lookupKey rest key

/-- Source `Component::single_prop`: the sole property for a key if
its bucket has length exactly one, else `None`. -/
def Component.single_prop (c : Component) (key : Str) : Option Property :=
  match lookupKey c.props key with
  | some x =>
    match x with
    | [p] => some p
    | _ => none
  | none => none

/-- Source `Component::all_props`: the bucket for a key, or the empty
slice. -/
def Component.all_props (c : Component) (key : Str) : List Property :=
  match lookupKey c.props key with
  | some values => values
  | none => []

/-- Source `Component::all_props_mut` via the entry API: an occupied
entry is returned as is; a vacant entry inserts an empty bucket.  The
state effect is modelled by returning the updated component together
with the bucket the returned mutable reference points at. -/
def Component.all_props_mut (c : Component) (key : Str) :
    Component × List Property :=
  match lookupKey c.props key with
  | some values => (c, values)
  | none => ({ c with props := c.props ++ [(key, [])] }, [])

/-- Model of `all_props_mut(k).push(v)` as used by the parse action:
append `v` to the bucket of `k`, creating the bucket if absent. -/
def pushProp (m : List (Str × List Property)) (k : Str) (v : Property) :
    List (Str × List Property) :=
  match m with
  | [] => [(k, [v])]
  | (k0, ps) :: rest =>
    if k0 = k then (k0, ps ++ [v]) :: rest else (k0, ps) :: pushProp rest k v

/-- Model of `HashMap::extend` over key/value pairs: later pairs
overwrite the value of an existing key in place; new keys are
appended. -/
def insertKV (m : List (Str × Str)) (k v : Str) : List (Str × Str) :=
  match m with
  | [] => [(k, v)]
  | (k0, v0) :: rest =>
    if k0 = k then (k0, v) :: rest else (k0, v0) :: insertKV rest k v

/-- Build the parameter map from parsed pairs (models
`HashMap::extend` in the `params` action). -/
def buildMap (ps : List (Str × Str)) : List (Str × Str) :=
  ps.foldl (fun m kv => insertKV m kv.1 kv.2) []

namespace parser

def iana_char (c : Char) : Bool := c.isAlpha || c.isDigit || c = '-'
def ctl_char (c : Char) : Bool := c.toNat ≤ 31 || c.toNat = 127
def eol_char (c : Char) : Bool := c = '\r' || c = '\n'
def ws_char (c : Char) : Bool := c = ' ' || c = '\t'
def qsafe_char (c : Char) : Bool := !(c = '"') && !(ctl_char c)
def safe_char (c : Char) : Bool := !(c = ';') && !(c = ':') && qsafe_char c
def value_char (c : Char) : Bool := !(eol_char c)

/-- One-or-more characters of a class (greedy), as in `iana_token+`,
`value_char+`. -/
def token1 (p : Char → Bool) (s : Str) : Option (Str × Str) :=
  match s.takeWhile p with
  | [] => none
  | c :: cs => some (c :: cs, s.dropWhile p)

/-- The `__` rule `(eol / whitespace)*`: greedily drop eol and
whitespace characters. -/
def trailing (s : Str) : Str := s.dropWhile (fun c => eol_char c || ws_char c)

/-- The `eols` rule `eol+`: at least one eol character, then greedily
all following eol characters. -/
def eols (s : Str) : Option Str :=
  match s with
  | c :: cs => if eol_char c then some ((c :: cs).dropWhile eol_char) else none
  | [] => none

/-- The `value` rule `value_char+`. -/
def value (s : Str) : Option (Str × Str) := token1 value_char s

/-- The `quoted_string` rule: a double quote, qsafe content, a double
quote. -/
def quoted_string (s : Str) : Option (Str × Str) :=
  match s with
  | '"' :: rest =>
    match rest.dropWhile qsafe_char with
    | '"' :: r2 => some (rest.takeWhile qsafe_char, r2)
    | _ => none
  | _ => none

/-- The `param_value` rule `quoted_string / param_text`, where
`param_text = safe_char*` never fails. -/
def param_value (s : Str) : Str × Str :=
  match quoted_string s with
  | some r => r
  | none => (s.takeWhile safe_char, s.dropWhile safe_char)

/-- The `param` rule: a parameter name, then optionally `=` and a
value; a missing `=value` part yields the empty string. -/
def param (s : Str) : Option ((Str × Str) × Str) :=
  match token1 iana_char s with
  | none => none
  | some (k, s1) =>
    match s1 with
    | '=' :: s2 =>
      let v := param_value s2
      some ((k, v.1), v.2)
    | _ => some ((k, []), s1)

/-- The `params` rule `(";" p:param)*`, fuelled (fuel at least the
input length never runs out): a possessive star whose failed iteration
backtracks to before its `";"`. -/
def paramsF : Nat → Str → List (Str × Str) × Str
  | 0, s => ([], s)
  | _ + 1, [] => ([], [])
  | fuel + 1, c :: s1 =>
    if c = ';' then
      match param s1 with
      | some (kv, s2) =>
        let r := paramsF fuel s2
        (kv :: r.1, r.2)
      | none => ([], c :: s1)
    else ([], c :: s1)

/-- The `params` rule `(";" p:param)*`. -/
def params (s : Str) : List (Str × Str) × Str := paramsF s.length s

/-- The `group?` part of the `prop` rule: try `group_name "."`; on
failure reset to the original position. -/
def group_opt (s : Str) : Option Str × Str :=
  match token1 iana_char s with
  | some (g, s1) =>
    match s1 with
    | '.' :: s2 => (some g, s2)
    | _ => (none, s)
  | none => (none, s)

/-- The `prop` rule: negative lookahead for `BEGIN:`/`END:`, optional
group, name, parameters, `":"`, value.  The action stores the parsed
parameter pairs through the `HashMap` (`buildMap`). -/
def prop (s : Str) : Option ((Str × Property) × Str) :=
  if "BEGIN:".toList.isPrefixOf s || "END:".toList.isPrefixOf s then none
  else
    match token1 iana_char (group_opt s).2 with
    | none => none
    | some (k, s2) =>
      match (params s2).2 with
      | ':' :: s4 =>
        match value s4 with
        | some (v, s5) =>
          some ((k, { params := buildMap (params s2).1, raw_value := v,
                      prop_group := (group_opt s).1 }), s5)
        | none => none
      | _ => none

/-- The `(eols prop)*` tail of the `props` rule, fuelled (fuel at
least the input length never runs out). -/
def props_tailF : Nat → Str → List (Str × Property) × Str
  | 0, s => ([], s)
  | fuel + 1, s =>
    match eols s with
    | none => ([], s)
    | some s1 =>
      match prop s1 with
      | none => ([], s)
      | some (kp, s2) =>
        let r := props_tailF fuel s2
        (kp :: r.1, r.2)

/-- The `(eols prop)*` tail of the `props` rule. -/
def props_tail (s : Str) : List (Str × Property) × Str :=
  props_tailF s.length s

/-- The `props` rule `prop ++ eols __`: one or more properties
separated by line endings, with trailing whitespace consumed. -/
def props (s : Str) : Option (List (Str × Property) × Str) :=
  match prop s with
  | none => none
  | some (kp, s1) =>
    let r := props_tail s1
    some (kp :: r.1, trailing r.2)

/-- The `component_begin` rule. -/
def component_begin (s : Str) : Option (Str × Str) :=
  if "BEGIN:".toList.isPrefixOf s then
    match value (s.drop 6) with
    | some (v, s1) => some (v, trailing s1)
    | none => none
  else none

/-- The `component_end` rule. -/
def component_end (s : Str) : Option (Str × Str) :=
  if "END:".toList.isPrefixOf s then
    match value (s.drop 4) with
    | some (v, s1) => some (v, trailing s1)
    | none => none
  else none

mutual

/-- The `component` rule: `component_begin props components
component_end`, with the action pushing each parsed property into its
bucket and installing the subcomponents. -/
def component : Nat → Str → Option (Component × Str)
  | 0, _ => none
  | fuel + 1, s =>
    match component_begin s with
    | none => none
    | some (nm, s1) =>
      match props s1 with
      | none => none
      | some (ps, s2) =>
        let cs := components fuel s2
        match component_end cs.2 with
        | none => none
        | some (_, s4) =>
          some ({ name := nm,
                  props := ps.foldl (fun m kp => pushProp m kp.1 kp.2) [],
                  subcomponents := cs.1 }, s4)

/-- The `components` rule `component ** eols __`. -/
def components : Nat → Str → List Component × Str
  | 0, s => ([], trailing s)
  | fuel + 1, s =>
    match component fuel s with
    | none => ([], trailing s)
    | some (c, s1) =>
      let r := components_tail fuel s1
      (c :: r.1, trailing r.2)

/-- The `(eols component)*` tail of the `components` rule. -/
def components_tail : Nat → Str → List Component × Str
  | 0, s => ([], s)
  | fuel + 1, s =>
    match eols s with
    | none => ([], s)
    | some s1 =>
      match component fuel s1 with
      | none => ([], s)
      | some (c, s2) =>
        let r := components_tail fuel s2
        (c :: r.1, r.2)

end

end parser

/-- Source `parse_component`: unfold the input, then run the
`component` rule requiring that all input is consumed.  Fuel
`length + 1` over-supplies the recursion, which always consumes input.
The peg engine's human-readable diagnostic strings are modelled by
fixed messages. -/
def parse_component (s : Str) : Except Str Component :=
  let unfolded := unfold_lines s
  match parser.component (unfolded.length + 1) unfolded with
  | some (c, []) => Except.ok c
  | some (_, _ :: _) => Except.error "expected end of input".toList
  | none => Except.error "syntax error".toList

/-- Serialized form of the parameters: `;key=value` for each pair. -/
def writeParams (ps : List (Str × Str)) : Str :=
  ps.flatMap (fun kv => ';' :: (kv.1 ++ '=' :: kv.2))

/-- Serialized form of one property content line (including the
terminating CRLF): optional group and dot, name, parameters, `":"`,
folded raw value. -/
def writePropLine (k : Str) (p : Property) : Str :=
  (match p.prop_group with
   | some g => g ++ ['.']
   | none => []) ++
  k ++ writeParams p.params ++ ':' :: fold_line p.raw_value ++ ['\r', '\n']

/-- Serialized form of all property buckets, in map iteration order
(list order of the association list), properties within a bucket in
order. -/
def writePropsAll (props : List (Str × List Property)) : Str :=
  props.flatMap (fun b => b.2.flatMap (fun p => writePropLine b.1 p))

mutual

/-- Source `write_component`: `BEGIN` line, property lines,
subcomponents, `END` line. -/
def write_component : Component → Str
  | .mk nm props subs =>
    "BEGIN:".toList ++ nm ++ ['\r', '\n'] ++
    writePropsAll props ++
    writeSubs subs ++
    "END:".toList ++ nm ++ ['\r', '\n']

/-- The subcomponent loop of `write_component`. -/
def writeSubs : List Component → Str
  | [] => []
  | c :: cs => write_component c ++ writeSubs cs

end

mutual

/-- Structural equivalence used by the round-trip claim: same name,
same set of property names, same per-name sequences of unescaped
values, and pairwise-equivalent subcomponent sequences. -/
def equivb : Component → Component → Bool
  | .mk nm props subs, b =>
    nm == b.name &&
    (props.map Prod.fst).all (fun k => (b.props.map Prod.fst).contains k) &&
    (b.props.map Prod.fst).all (fun k => (props.map Prod.fst).contains k) &&
    (props.map Prod.fst).all (fun k =>
      ((Component.mk nm props subs).all_props k).map Property.value_as_string ==
      (b.all_props k).map Property.value_as_string) &&
    equivbList subs b.subcomponents

/-- Pairwise `equivb` on subcomponent sequences. -/
def equivbList : List Component → List Component → Bool
  | [], [] => true
  | a :: as_, b :: bs => equivb a b && equivbList as_ bs
  | _, _ => false

end

/-- Variant of `writePropLine` with the folding pass removed (used to
describe the result of unfolding the serialized text). -/
def writePropLineNF (k : Str) (p : Property) : Str :=
  (match p.prop_group with
   | some g => g ++ ['.']
   | none => []) ++
  k ++ writeParams p.params ++ ':' :: p.raw_value ++ ['\r', '\n']

/-- Variant of `writePropsAll` with the folding pass removed. -/
def writePropsAllNF (props : List (Str × List Property)) : Str :=
  props.flatMap (fun b => b.2.flatMap (fun p => writePropLineNF b.1 p))

mutual

/-- Variant of `write_component` with the folding pass removed:
`unfold_lines` of the serialized text gives exactly this. -/
def writeNF : Component → Str
  | .mk nm props subs =>
    "BEGIN:".toList ++ nm ++ ['\r', '\n'] ++
    writePropsAllNF props ++
    writeNFSubs subs ++
    "END:".toList ++ nm ++ ['\r', '\n']

/-- The subcomponent loop of `writeNF`. -/
def writeNFSubs : List Component → Str
  | [] => []
  | c :: cs => writeNF c ++ writeNFSubs cs

end

/-- The property buckets flattened to (name, property) pairs in
serialization order. -/
def flatPairs (props : List (Str × List Property)) : List (Str × Property) :=
  props.flatMap (fun b => b.2.map (fun p => (b.1, p)))

/-- A nonempty token of `iana_char` characters. -/
def ianaStr (s : Str) : Prop := s ≠ [] ∧ ∀ c ∈ s, parser.iana_char c = true

/-- A string with no CR and no LF. -/
def noEolStr (s : Str) : Prop := ∀ c ∈ s, parser.eol_char c = false

/-- Well-formedness of a (name, property) pair, parameterized by the
predicate `pv` imposed on each parameter pair.  The last conjunct
records that a groupless property named `BEGIN` or `END` must carry at
least one parameter (otherwise its content line would start with
`BEGIN:` or `END:` and be rejected by the lookahead). -/
def wfProp (pv : Str × Str → Prop) (k : Str) (p : Property) : Prop :=
  ianaStr k ∧
  p.raw_value ≠ [] ∧
  noEolStr p.raw_value ∧
  (∀ kv ∈ p.params, pv kv) ∧
  (p.params.map Prod.fst).Nodup ∧
  (match p.prop_group with
   | some g => ianaStr g
   | none => (k = "BEGIN".toList ∨ k = "END".toList) → p.params ≠ [])

/-- Parameter well-formedness in the image of the parser: the name is
an iana token and the value is qsafe text (it may have come from a
quoted string). -/
def wfParamI (kv : Str × Str) : Prop :=
  ianaStr kv.1 ∧ ∀ c ∈ kv.2, parser.qsafe_char c = true

/-- Parameter well-formedness needed for an exact round-trip: the
value consists of safe characters only (no `;`, `:`, double quote or
control character), so that serializing it unquoted re-reads as
itself. -/
def wfParamS (kv : Str × Str) : Prop :=
  ianaStr kv.1 ∧ ∀ c ∈ kv.2, parser.safe_char c = true

mutual

/-- Well-formedness of a component tree, parameterized by the
parameter-pair predicate: nonempty eol-free name, at least one
property bucket, distinct bucket keys, nonempty buckets of well-formed
properties, and at most one subcomponent (the grammar's possessive
`__` makes a second sibling unparseable, so the parser never produces
one). -/
def WFC (pv : Str × Str → Prop) : Component → Prop
  | .mk nm props subs =>
    nm ≠ [] ∧ noEolStr nm ∧
    props ≠ [] ∧
    (props.map Prod.fst).Nodup ∧
    (∀ b ∈ props, b.2 ≠ [] ∧ ∀ p ∈ b.2, wfProp pv b.1 p) ∧
    subs.length ≤ 1 ∧
    WFCList pv subs

/-- `WFC` over a list of components. -/
def WFCList (pv : Str × Str → Prop) : List Component → Prop
  | [] => True
  | c :: cs => WFC pv c ∧ WFCList pv cs

end

mutual

/-- Decidable check that every parameter value in the tree contains
neither `;` nor `:` (the hypothesis of the amended round-trip
claim). -/
def paramsSafeB : Component → Bool
  | .mk _ props subs =>
    props.all (fun b =>
      b.2.all (fun p =>
        p.params.all (fun kv =>
          kv.2.all (fun ch => !(ch = ';') && !(ch = ':'))))) &&
    paramsSafeBList subs

/-- `paramsSafeB` over a list of components. -/
def paramsSafeBList : List Component → Bool
  | [] => true
  | c :: cs => paramsSafeB c && paramsSafeBList cs

end

mutual

/-- Fuel sufficient for the `component` rule to parse the serialized
form of a component tree. -/
def needFuel : Component → Nat
  | .mk _ _ subs => 2 + needFuelList subs

/-- Sum of `needFuel` over a list of components. -/
def needFuelList : List Component → Nat
  | [] => 0
  | c :: cs => needFuel c + needFuelList cs

end

/-- Strings in clean wire shape: CR and LF occur only as CRLF pairs
followed by a non-whitespace character or by the end of the string.
The unfolding pass leaves such strings unchanged. -/
inductive Clean : Str → Prop where
  | nil : Clean []
  | plain : ∀ (c : Char) (l : Str), parser.eol_char c = false → Clean l →
      Clean (c :: l)
  | hardEnd : Clean ['\r', '\n']
  | hard : ∀ (c : Char) (l : Str), parser.eol_char c = false →
      parser.ws_char c = false → Clean (c :: l) →
      Clean ('\r' :: '\n' :: c :: l)

/-- A string that may legally follow a hard CRLF break: empty, or
starting with a character that is neither an eol character nor
whitespace. -/
def headOk (t : Str) : Prop :=
  t = [] ∨ ∃ c l, t = c :: l ∧ parser.eol_char c = false ∧
    parser.ws_char c = false

/-- The simple vCard input of the parsing claim. -/
def dForrest : Str := "BEGIN:VCARD\r\nFN:Forrest Gump\r\nEND:VCARD\r\n".toList

/-- The property produced by parsing `dForrest`. -/
def pForrest : Property :=
  { params := [], raw_value := "Forrest Gump".toList, prop_group := none }

/-- The component produced by parsing `dForrest`. -/
def cForrest : Component :=
  { name := "VCARD".toList,
    props := [("FN".toList, [pForrest])],
    subcomponents := [] }

/-- Round-trip counterexample input: a quoted parameter value
containing a colon. -/
def dQuotedColon : Str := "BEGIN:A\r\nP;X=\"a:b\":v\r\nEND:A\r\n".toList

/-- The component produced by parsing `dQuotedColon`. -/
def cQuotedColon : Component :=
  { name := ['A'],
    props := [(['P'],
      [{ params := [(['X'], "a:b".toList)], raw_value := ['v'],
         prop_group := none }])],
    subcomponents := [] }

/-- The component produced by re-parsing the serialization of
`cQuotedColon`: the unquoted colon shifts the value. -/
def cQuotedColonRe : Component :=
  { name := ['A'],
    props := [(['P'],
      [{ params := [(['X'], ['a'])], raw_value := "b:v".toList,
         prop_group := none }])],
    subcomponents := [] }

/-- The nested-components input of the nesting claim. -/
def dNested : Str := "BEGIN:A\r\nBEGIN:B\r\nEND:B\r\nEND:A\r\n".toList

/-- A nested-components input with one property in each component. -/
def dNestedProps : Str :=
  "BEGIN:A\r\nK:w\r\nBEGIN:B\r\nK:w\r\nEND:B\r\nEND:A\r\n".toList

/-- The component produced by parsing `dNestedProps`. -/
def cNestedProps : Component :=
  { name := ['A'],
    props := [(['K'],
      [{ params := [], raw_value := ['w'], prop_group := none }])],
    subcomponents :=
      [{ name := ['B'],
         props := [(['K'],
           [{ params := [], raw_value := ['w'], prop_group := none }])],
         subcomponents := [] }] }

/-- Parameter-without-value input of the defaulting claim. -/
def dParamNoValue : Str := "BEGIN:A\r\nNAME;FOO:bar\r\nEND:A\r\n".toList

/-- The same contentline with the parameter written as `FOO=`. -/
def dParamEmptyValue : Str := "BEGIN:A\r\nNAME;FOO=:bar\r\nEND:A\r\n".toList

/-- The component produced by parsing both parameter inputs. -/
def cParamDefault : Component :=
  { name := ['A'],
    props := [("NAME".toList,
      [{ params := [("FOO".toList, [])], raw_value := "bar".toList,
         prop_group := none }])],
    subcomponents := [] }

theorem replaceFuel_congr (p r : Str) :
    ∀ (f1 f2 : Nat) (s : Str), s.length ≤ f1 → s.length ≤ f2 →
      replaceFuel p r f1 s = replaceFuel p r f2 s := by
  intro f1
  induction f1 with
  | zero =>
    intro f2 s h1 h2
    match s with
    | [] =>
      cases f2 <;> rfl
    | c :: cs => simp at h1
  | succ f1 ih =>
    intro f2 s h1 h2
    match s with
    | [] => cases f2 <;> rfl
    | c :: cs =>
      match f2 with
      | 0 => simp at h2
      | f2 + 1 =>
        simp only [replaceFuel]
        by_cases hp : p.isPrefixOf (c :: cs)
        · rw [if_pos hp, if_pos hp]
          have hd : (cs.drop (p.length - 1)).length ≤ cs.length := by
            rw [List.length_drop]
            omega
          simp only [List.length_cons] at h1 h2
          rw [ih f2 (cs.drop (p.length - 1)) (by omega) (by omega)]
        · rw [if_neg hp, if_neg hp]
          simp only [List.length_cons] at h1 h2
          rw [ih f2 cs (by omega) (by omega)]

theorem replaceList_nil (p r : Str) : replaceList p r [] = [] := rfl

/-- Defining one-step unfolding of `replaceList`. -/
theorem replaceList_cons (p r : Str) (c : Char) (cs : Str) :
    replaceList p r (c :: cs) =
      if p.isPrefixOf (c :: cs) then
        r ++ replaceList p r (cs.drop (p.length - 1))
      else c :: replaceList p r cs := by
  unfold replaceList
  simp only [List.length_cons, replaceFuel]
  by_cases hp : p.isPrefixOf (c :: cs)
  · rw [if_pos hp, if_pos hp]
    have hd : (cs.drop (p.length - 1)).length ≤ cs.length := by
      rw [List.length_drop]
      omega
    rw [replaceFuel_congr p r cs.length (cs.drop (p.length - 1)).length
      (cs.drop (p.length - 1)) hd (le_refl _)]
  · rw [if_neg hp, if_neg hp]

namespace parser

theorem takeWhile_length_add_dropWhile_length (p : Char → Bool) (s : Str) :
    (s.takeWhile p).length + (s.dropWhile p).length = s.length := by
  rw [← List.length_append, List.takeWhile_append_dropWhile]

theorem dropWhile_length_le (p : Char → Bool) (s : Str) :
    (s.dropWhile p).length ≤ s.length := by
  have := takeWhile_length_add_dropWhile_length p s
  omega

theorem token1_rest_lt {p : Char → Bool} {s t r : Str}
    (h : token1 p s = some (t, r)) : r.length < s.length := by
  unfold token1 at h
  split at h
  · exact absurd h (by simp)
  · rename_i c cs htw
    simp only [Option.some.injEq, Prod.mk.injEq] at h
    have hlen := takeWhile_length_add_dropWhile_length p s
    rw [htw] at hlen
    simp only [List.length_cons] at hlen
    obtain ⟨-, hr⟩ := h
    subst hr
    omega

theorem token1_rest_eq {p : Char → Bool} {s t r : Str}
    (h : token1 p s = some (t, r)) : t = s.takeWhile p ∧ r = s.dropWhile p := by
  unfold token1 at h
  split at h
  · exact absurd h (by simp)
  · rename_i c cs htw
    simp only [Option.some.injEq, Prod.mk.injEq] at h
    exact ⟨h.1.symm.trans htw.symm, h.2.symm⟩

theorem quoted_rest_lt {s t r : Str}
    (h : quoted_string s = some (t, r)) : r.length < s.length := by
  unfold quoted_string at h
  split at h
  · rename_i rest
    split at h
    · rename_i r2 hdw
      simp only [Option.some.injEq, Prod.mk.injEq] at h
      have hlen := takeWhile_length_add_dropWhile_length qsafe_char rest
      rw [hdw] at hlen
      simp only [List.length_cons] at hlen ⊢
      obtain ⟨-, hr⟩ := h
      subst hr
      omega
    · exact absurd h (by simp)
  · exact absurd h (by simp)

theorem param_rest_lt {s : Str} {kv : Str × Str} {r : Str}
    (h : param s = some (kv, r)) : r.length < s.length := by
  unfold param at h
  split at h
  · exact absurd h (by simp)
  · rename_i kr k s1 ht
    have hs1 : s1.length < s.length := token1_rest_lt ht
    split at h
    · rename_i s2
      simp only [param_value] at h
      split at h
      · rename_i vr hq
        obtain ⟨v1, v2⟩ := vr
        simp only [Option.some.injEq, Prod.mk.injEq] at h
        have := quoted_rest_lt hq
        simp only [List.length_cons] at hs1
        obtain ⟨-, hr⟩ := h
        subst hr
        omega
      · simp only [Option.some.injEq, Prod.mk.injEq] at h
        obtain ⟨-, hr⟩ := h
        subst hr
        have hd := dropWhile_length_le safe_char s2
        simp only [List.length_cons] at hs1
        omega
    · simp only [Option.some.injEq, Prod.mk.injEq] at h
      obtain ⟨-, hr⟩ := h
      subst hr
      omega

theorem eols_rest_lt {s s1 : Str} (h : eols s = some s1) :
    s1.length < s.length := by
  unfold eols at h
  split at h
  · rename_i c cs
    split at h
    · rename_i hc
      simp only [Option.some.injEq] at h
      subst h
      rw [List.dropWhile_cons, if_pos hc]
      have := dropWhile_length_le eol_char cs
      simp only [List.length_cons]
      omega
    · exact absurd h (by simp)
  · exact absurd h (by simp)

theorem paramsF_congr :
    ∀ (f1 f2 : Nat) (s : Str), s.length ≤ f1 → s.length ≤ f2 →
      paramsF f1 s = paramsF f2 s := by
  intro f1
  induction f1 with
  | zero =>
    intro f2 s h1 h2
    match s with
    | [] => cases f2 <;> rfl
    | c :: cs => simp at h1
  | succ f1 ih =>
    intro f2 s h1 h2
    match f2 with
    | 0 =>
      match s with
      | [] => rfl
      | c :: cs => simp at h2
    | f2 + 1 =>
      match s with
      | [] => rfl
      | c :: s1 =>
        simp only [paramsF]
        by_cases hc : c = ';'
        · rw [if_pos hc, if_pos hc]
          cases hp : param s1 with
          | none => simp only [hp]
          | some kvr =>
            obtain ⟨kv, s2⟩ := kvr
            simp only [hp]
            have hlt := param_rest_lt hp
            simp only [List.length_cons] at h1 h2
            rw [ih f2 s2 (by omega) (by omega)]
        · rw [if_neg hc, if_neg hc]

/-- Defining unfolding of `params` on a nonempty input. -/
theorem params_cons (c : Char) (s1 : Str) :
    params (c :: s1) =
      if c = ';' then
        match param s1 with
        | some (kv, s2) =>
          let r := params s2
          (kv :: r.1, r.2)
        | none => ([], c :: s1)
      else ([], c :: s1) := by
  unfold params
  simp only [List.length_cons, paramsF]
  by_cases hc : c = ';'
  · rw [if_pos hc, if_pos hc]
    cases hp : param s1 with
    | none => simp only [hp]
    | some kvr =>
      obtain ⟨kv, s2⟩ := kvr
      simp only [hp]
      have hlt := param_rest_lt hp
      rw [paramsF_congr s1.length s2.length s2 (by omega) (le_refl _)]
  · rw [if_neg hc, if_neg hc]

theorem params_nil : params [] = ([], []) := rfl

theorem paramsF_rest_le (fuel : Nat) (s : Str) :
    (paramsF fuel s).2.length ≤ s.length := by
  induction fuel generalizing s with
  | zero => exact le_refl _
  | succ fuel ih =>
    match s with
    | [] => exact le_refl _
    | c :: s1 =>
      simp only [paramsF]
      by_cases hc : c = ';'
      · rw [if_pos hc]
        cases hp : param s1 with
        | none => simp only [hp]; exact le_refl _
        | some kvr =>
          obtain ⟨kv, s2⟩ := kvr
          simp only [hp]
          have h1 := param_rest_lt hp
          have h2 := ih s2
          simp only [List.length_cons]
          omega
      · rw [if_neg hc]

theorem params_rest_le (s : Str) : (params s).2.length ≤ s.length :=
  paramsF_rest_le s.length s

theorem group_opt_rest_le (s : Str) : (group_opt s).2.length ≤ s.length := by
  unfold group_opt
  split
  · rename_i g s1 htok
    split
    · rename_i s2
      have := token1_rest_lt htok
      simp only [List.length_cons] at this ⊢
      omega
    · exact le_refl _
  · exact le_refl _

theorem prop_rest_lt {s : Str} {kp : Str × Property} {r : Str}
    (h : prop s = some (kp, r)) : r.length < s.length := by
  unfold prop at h
  split at h
  · exact absurd h (by simp)
  · rename_i hguard
    split at h
    · exact absurd h (by simp)
    · rename_i kr k s2 ht
      have hgr := group_opt_rest_le s
      have hs2 : s2.length < (group_opt s).2.length := token1_rest_lt ht
      have hps := params_rest_le s2
      split at h
      · rename_i s4 hp4
        split at h
        · rename_i v s5 hv
          simp only [Option.some.injEq, Prod.mk.injEq] at h
          obtain ⟨-, hr⟩ := h
          subst hr
          have hv5 := token1_rest_lt hv
          have : (params s2).2.length = s4.length + 1 := by rw [hp4]; simp
          omega
        · exact absurd h (by simp)
      · exact absurd h (by simp)

theorem props_tailF_congr :
    ∀ (f1 f2 : Nat) (s : Str), s.length ≤ f1 → s.length ≤ f2 →
      props_tailF f1 s = props_tailF f2 s := by
  intro f1
  induction f1 with
  | zero =>
    intro f2 s h1 h2
    have hs : s = [] := by
      cases s with
      | nil => rfl
      | cons c cs => simp at h1
    subst hs
    cases f2 with
    | zero => rfl
    | succ f2 => rfl
  | succ f1 ih =>
    intro f2 s h1 h2
    match f2 with
    | 0 =>
      have hs : s = [] := by
        cases s with
        | nil => rfl
        | cons c cs => simp at h2
      subst hs
      rfl
    | f2 + 1 =>
      simp only [props_tailF]
      cases he : eols s with
      | none => simp only [he]
      | some s1 =>
        simp only [he]
        cases hp : prop s1 with
        | none => simp only [hp]
        | some kpr =>
          obtain ⟨kp, s2⟩ := kpr
          simp only [hp]
          have hl1 := eols_rest_lt he
          have hl2 := prop_rest_lt hp
          rw [ih f2 s2 (by omega) (by omega)]

/-- Defining unfolding of `props_tail`. -/
theorem props_tail_eq (s : Str) :
    props_tail s =
      match eols s with
      | none => ([], s)
      | some s1 =>
        match prop s1 with
        | none => ([], s)
        | some (kp, s2) =>
          let r := props_tail s2
          (kp :: r.1, r.2) := by
  unfold props_tail
  match s with
  | [] => rfl
  | c :: cs =>
    simp only [List.length_cons, props_tailF]
    cases he : eols (c :: cs) with
    | none => simp only [he]
    | some s1 =>
      simp only [he]
      cases hp : prop s1 with
      | none => simp only [hp]
      | some kpr =>
        obtain ⟨kp, s2⟩ := kpr
        simp only [hp]
        have hl1 := eols_rest_lt he
        have hl2 := prop_rest_lt hp
        simp only [List.length_cons] at hl1
        rw [props_tailF_congr cs.length s2.length s2 (by omega) (le_refl _)]

end parser

theorem lookupKey_append_self {α : Type} (m : List (Str × α)) (k : Str)
    (v : α) (h : lookupKey m k = none) :
    lookupKey (m ++ [(k, v)]) k = some v := by
  induction m with
  | nil => simp [lookupKey]
  | cons b rest ih =>
    obtain ⟨k0, v0⟩ := b
    simp only [lookupKey] at h
    simp only [List.cons_append, lookupKey]
    by_cases hk : k0 = k
    · rw [if_pos hk] at h
      exact absurd h (by simp)
    · rw [if_neg hk] at h
      rw [if_neg hk]
      exact ih h

theorem lookupKey_append_other {α : Type} (m : List (Str × α)) (k k2 : Str)
    (v : α) (h : k2 ≠ k) :
    lookupKey (m ++ [(k, v)]) k2 = lookupKey m k2 := by
  induction m with
  | nil =>
    simp only [List.nil_append, lookupKey]
    rw [if_neg (fun hh => h hh.symm)]
  | cons b rest ih =>
    obtain ⟨k0, v0⟩ := b
    simp only [List.cons_append, lookupKey]
    by_cases hk : k0 = k2
    · rw [if_pos hk, if_pos hk]
    · rw [if_neg hk, if_neg hk]
      exact ih

theorem all_props_of_lookup_some (c : Component) (k : Str)
    (xs : List Property) (h : lookupKey c.props k = some xs) :
    c.all_props k = xs := by
  unfold Component.all_props
  rw [h]

/-- C8: for every component and key, `single_prop` returns `some` of
the unique property exactly when the bucket for the key holds exactly
one property, and returns `none` both when the key is absent and when
its bucket holds a number of properties different from one. -/
theorem C8_single_prop_characterization :
    ∀ (c : Component) (k : Str),
      (∀ p : Property,
        c.single_prop k = some p ↔ lookupKey c.props k = some [p]) ∧
      (c.single_prop k = none ↔
        lookupKey c.props k = none ∨
        ∃ xs, lookupKey c.props k = some xs ∧ xs.length ≠ 1) := by
  intro c k
  unfold Component.single_prop
  cases hl : lookupKey c.props k with
  | none => simp
  | some xs =>
    match xs with
    | [] =>
      refine ⟨by simp, ?_⟩
      simp only [Option.some.injEq, true_iff, reduceCtorEq, false_or]
      exact ⟨[], rfl, by simp⟩
    | [p0] => simp
    | p0 :: p1 :: rest =>
      refine ⟨by simp, ?_⟩
      simp only [Option.some.injEq, true_iff, reduceCtorEq, false_or]
      exact ⟨p0 :: p1 :: rest, rfl, by simp⟩

/-- C9: calling `all_props_mut` with a key absent from the property
map inserts an empty bucket under that key, leaves the name, the
subcomponents and every other entry unchanged, and returns that empty
bucket; afterwards `all_props` finds an empty but present bucket. -/
theorem C9_all_props_mut_vacant (c : Component) (k : Str)
    (h : lookupKey c.props k = none) :
    (c.all_props_mut k).2 = [] ∧
    (c.all_props_mut k).1.name = c.name ∧
    (c.all_props_mut k).1.subcomponents = c.subcomponents ∧
    (c.all_props_mut k).1.props = c.props ++ [(k, [])] ∧
    lookupKey (c.all_props_mut k).1.props k = some [] ∧
    (∀ k2, k2 ≠ k →
      lookupKey (c.all_props_mut k).1.props k2 = lookupKey c.props k2) ∧
    (c.all_props_mut k).1.all_props k = [] := by
  have h2 : c.all_props_mut k = ({ c with props := c.props ++ [(k, [])] }, []) := by
    unfold Component.all_props_mut
    rw [h]
  have h5 : lookupKey ({ c with props := c.props ++ [(k, [])] } :
      Component).props k = some [] :=
    lookupKey_append_self c.props k [] h
  rw [h2]
  exact ⟨rfl, rfl, rfl, rfl, h5,
    fun k2 hk2 => lookupKey_append_other c.props k k2 [] hk2,
    all_props_of_lookup_some _ k [] h5⟩

theorem C9_all_props_mut_vacant_witness :
    lookupKey (Component.new ['A']).props ['X'] = none ∧
    (((Component.new ['A']).all_props_mut ['X']).2 = [] ∧
     ((Component.new ['A']).all_props_mut ['X']).1.name =
       (Component.new ['A']).name ∧
     ((Component.new ['A']).all_props_mut ['X']).1.subcomponents =
       (Component.new ['A']).subcomponents ∧
     ((Component.new ['A']).all_props_mut ['X']).1.props =
       (Component.new ['A']).props ++ [(['X'], [])] ∧
     lookupKey ((Component.new ['A']).all_props_mut ['X']).1.props ['X'] =
       some [] ∧
     (∀ k2, k2 ≠ ['X'] →
       lookupKey ((Component.new ['A']).all_props_mut ['X']).1.props k2 =
       lookupKey (Component.new ['A']).props k2) ∧
     ((Component.new ['A']).all_props_mut ['X']).1.all_props ['X'] = []) :=
  ⟨rfl, C9_all_props_mut_vacant (Component.new ['A']) ['X'] rfl⟩

/-- C2 (code bug evidence): `fold_line` on seventy-six characters
inserts the break after the seventy-sixth character (enumerate index
75), not after the seventy-fifth as claimed, so the first segment has
seventy-six characters. -/
theorem C2_fold_line_off_by_one :
    fold_line (List.replicate 76 'a') =
      List.replicate 76 'a' ++ ['\r', '\n', ' '] ∧
    fold_line (List.replicate 76 'a') ≠
      List.replicate 75 'a' ++ '\r' :: '\n' :: ' ' :: ['a'] :=
  ⟨rfl, by decide⟩

/-- C5: parsing the simple vCard document yields a component named
`VCARD` with exactly one property under the key `FN` whose unescaped
value is `Forrest Gump`. -/
theorem C5_parse_simple_vcard :
    parse_component dForrest = Except.ok cForrest ∧
    cForrest.name = "VCARD".toList ∧
    cForrest.props = [("FN".toList, [pForrest])] ∧
    pForrest.value_as_string = "Forrest Gump".toList :=
  ⟨rfl, rfl, rfl, rfl⟩

/-- C6: `parse_component` returns an error value (which carries only
a message, never a partially built component) on the empty string, on
an unterminated `BEGIN:VCARD`, and on a component whose single content
line lacks a `:` separator. -/
theorem C6_parse_failures :
    parse_component [] = Except.error "syntax error".toList ∧
    parse_component "BEGIN:VCARD\r\n".toList =
      Except.error "syntax error".toList ∧
    parse_component "BEGIN:VCARD\r\nFOO\r\nEND:VCARD\r\n".toList =
      Except.error "syntax error".toList :=
  ⟨rfl, rfl, rfl⟩

/-- C7 (counterexample): the nested document with no properties does
not parse to a component at all: the grammar's `props` rule demands at
least one property per component, so `parse_component` returns an
error, not the claimed `Ok`. -/
theorem C7_nested_counterexample :
    parse_component dNested = Except.error "syntax error".toList := rfl

/-- C7 (amended): the property-less nested document is rejected
because every component needs at least one property; adding one
property per component makes the document parse to a component named
`A` with exactly one subcomponent named `B`. -/
theorem C7_nested_amended :
    parse_component dNested = Except.error "syntax error".toList ∧
    parse_component dNestedProps = Except.ok cNestedProps ∧
    cNestedProps.name = ['A'] ∧
    cNestedProps.subcomponents.map Component.name = [['B']] :=
  ⟨rfl, rfl, rfl, rfl⟩

/-- C10: a parameter written without an `=value` part parses to the
empty string, indistinguishable from one written with an explicit
empty value. -/
theorem C10_param_without_value :
    parse_component dParamNoValue = Except.ok cParamDefault ∧
    parse_component dParamEmptyValue = Except.ok cParamDefault ∧
    (cParamDefault.all_props "NAME".toList).map Property.params =
      [[("FOO".toList, [])]] :=
  ⟨rfl, rfl, rfl⟩

/-- C1 (counterexample): the document whose property has a quoted
parameter value containing a colon parses fine, but re-parsing its
serialization shifts the colon-suffix of the parameter into the
property value, so the per-name unescaped value sequences differ. -/
theorem C1_quoted_param_counterexample :
    parse_component dQuotedColon = Except.ok cQuotedColon ∧
    parse_component (write_component cQuotedColon) =
      Except.ok cQuotedColonRe ∧
    equivb cQuotedColonRe cQuotedColon = false ∧
    (cQuotedColonRe.all_props ['P']).map Property.value_as_string ≠
      (cQuotedColon.all_props ['P']).map Property.value_as_string :=
  ⟨rfl, rfl, rfl, by decide⟩

/-- C3 (counterexample): the two-character string backslash-`N` is
free of control characters, yet escaping then unescaping it yields a
single newline character. -/
theorem C3_backslash_counterexample :
    (∀ ch ∈ ['\\', 'N'], parser.ctl_char ch = false) ∧
    unescape_chars (escape_chars ['\\', 'N']) = ['\n'] ∧
    ('\n' :: ([] : Str)) ≠ ['\\', 'N'] :=
  ⟨by decide, rfl, by decide⟩

theorem isPrefixOf_cons_false (a : Char) (p2 : Str) (c : Char) (cs : Str)
    (h : c ≠ a) : (a :: p2).isPrefixOf (c :: cs) = false := by
  have hac : (a == c) = false := beq_eq_false_iff_ne.mpr (fun hh => h hh.symm)
  simp [List.isPrefixOf_cons₂, hac]

theorem replaceList_of_head_not_mem (a : Char) (p2 r : Str) :
    ∀ s : Str, (∀ c ∈ s, c ≠ a) → replaceList (a :: p2) r s = s := by
  intro s
  induction s with
  | nil => intro h; rfl
  | cons c cs ih =>
    intro h
    rw [replaceList_cons]
    rw [if_neg (by
      rw [isPrefixOf_cons_false a p2 c cs (h c (by simp))]
      simp)]
    rw [ih (fun c2 hc2 => h c2 (by simp [hc2]))]

theorem step1_foldAux :
    ∀ v : Str, (∀ c ∈ v, c ≠ '\r' ∧ c ≠ '\n') →
    ∀ (i : Nat) (rest : Str),
      replaceList ['\r', '\n', ' '] [] (foldAux v i ++ rest) =
        v ++ replaceList ['\r', '\n', ' '] [] rest := by
  intro v
  induction v with
  | nil =>
    intro hv i rest
    simp [foldAux]
  | cons c cs ih =>
    intro hv i rest
    have hcr : c ≠ '\r' := (hv c (by simp)).1
    have ihcs := ih (fun c2 hc2 => hv c2 (by simp [hc2])) (i + 1)
    rw [foldAux]
    by_cases hi : i ≠ 0 ∧ i % 75 = 0
    · rw [if_pos hi]
      simp only [List.cons_append]
      rw [replaceList_cons]
      rw [if_neg (by
        rw [isPrefixOf_cons_false '\r' ['\n', ' '] c _ hcr]
        simp)]
      rw [replaceList_cons]
      rw [if_pos (by simp [List.isPrefixOf])]
      simp only [List.length_cons, List.length_nil, List.drop_succ_cons,
        List.drop_zero, List.nil_append]
      rw [ihcs rest]
    · rw [if_neg hi]
      simp only [List.cons_append]
      rw [replaceList_cons]
      rw [if_neg (by
        rw [isPrefixOf_cons_false '\r' ['\n', ' '] c _ hcr]
        simp)]
      rw [ihcs rest]

/-- C4: unfolding undoes folding on any string free of line-break
characters: the six unfolding replacements remove exactly the inserted
CRLF-space breaks and touch nothing else. -/
theorem C4_unfold_fold_roundtrip (s : Str)
    (h : ∀ c ∈ s, c ≠ '\r' ∧ c ≠ '\n') :
    unfold_lines (fold_line s) = s := by
  unfold unfold_lines fold_line
  have h1 : replaceList ['\r', '\n', ' '] [] (foldAux s 0) = s := by
    have := step1_foldAux s h 0 []
    simpa only [List.append_nil, replaceList_nil] using this
  rw [h1]
  rw [replaceList_of_head_not_mem '\r' ['\n', '\t'] [] s
    (fun c hc => (h c hc).1)]
  rw [replaceList_of_head_not_mem '\n' [' '] [] s
    (fun c hc => (h c hc).2)]
  rw [replaceList_of_head_not_mem '\n' ['\t'] [] s
    (fun c hc => (h c hc).2)]
  rw [replaceList_of_head_not_mem '\r' [' '] [] s
    (fun c hc => (h c hc).1)]
  rw [replaceList_of_head_not_mem '\r' ['\t'] [] s
    (fun c hc => (h c hc).1)]

theorem C4_unfold_fold_roundtrip_witness :
    (∀ c ∈ List.replicate 80 'a', c ≠ '\r' ∧ c ≠ '\n') ∧
    unfold_lines (fold_line (List.replicate 80 'a')) =
      List.replicate 80 'a' :=
  ⟨by decide, C4_unfold_fold_roundtrip (List.replicate 80 'a') (by decide)⟩

theorem ne_cr_of_not_ctl {c : Char} (h : parser.ctl_char c = false) :
    c ≠ '\r' := by
  intro hh
  rw [hh] at h
  exact absurd h (by decide)

theorem ne_lf_of_not_ctl {c : Char} (h : parser.ctl_char c = false) :
    c ≠ '\n' := by
  intro hh
  rw [hh] at h
  exact absurd h (by decide)

theorem replaceList_single (a : Char) (r : Str) :
    ∀ s : Str, replaceList [a] r s =
      s.flatMap (fun c => if c = a then r else [c]) := by
  intro s
  induction s with
  | nil => rfl
  | cons c cs ih =>
    rw [replaceList_cons, List.flatMap_cons]
    by_cases hc : c = a
    · rw [if_pos (by
        subst hc
        simp [List.isPrefixOf_cons₂])]
      simp only [List.length_cons, List.length_nil, Nat.sub_self,
        List.drop_zero]
      rw [ih, if_pos hc]
    · rw [if_neg (by
        rw [isPrefixOf_cons_false a [] c cs hc]
        simp)]
      rw [ih, if_neg hc]
      rfl

theorem mem_flatMap_esc {s : Str} {c2 : Char}
    (h : c2 ∈ s.flatMap (fun c =>
      if c = ';' then ['\\', ';'] else
      if c = ',' then ['\\', ','] else [c])) :
    c2 = '\\' ∨ c2 = ';' ∨ c2 = ',' ∨ c2 ∈ s := by
  rw [List.mem_flatMap] at h
  obtain ⟨a, ha, hmem⟩ := h
  by_cases h1 : a = ';'
  · rw [if_pos h1] at hmem
    simp at hmem
    rcases hmem with h2 | h2 <;> simp [h2]
  · rw [if_neg h1] at hmem
    by_cases h2 : a = ','
    · rw [if_pos h2] at hmem
      simp at hmem
      rcases hmem with h3 | h3 <;> simp [h3]
    · rw [if_neg h2] at hmem
      simp at hmem
      subst hmem
      simp [ha]

theorem escape_chars_of_plain (s : Str)
    (h : ∀ c ∈ s, parser.ctl_char c = false ∧ c ≠ '\\') :
    escape_chars s = s.flatMap (fun c =>
      if c = ';' then ['\\', ';'] else
      if c = ',' then ['\\', ','] else [c]) := by
  unfold escape_chars
  rw [replaceList_of_head_not_mem '\\' ['N'] ['\n'] s
    (fun c hc => (h c hc).2)]
  rw [replaceList_of_head_not_mem '\\' [] ['\\', '\\'] s
    (fun c hc => (h c hc).2)]
  rw [replaceList_single ';' ['\\', ';'] s]
  rw [replaceList_single ',' ['\\', ',']]
  rw [List.flatMap_assoc]
  have hf : (fun c => ((fun c => if c = ';' then ['\\', ';'] else [c]) c).flatMap
      (fun c => if c = ',' then ['\\', ','] else [c])) =
      (fun c => if c = ';' then ['\\', ';'] else
        if c = ',' then ['\\', ','] else [c]) := by
    funext c
    by_cases h1 : c = ';'
    · simp [h1]
    · by_cases h2 : c = ','
      · simp [h1, h2]
      · simp [h1, h2]
  rw [hf]
  have hs : ∀ c2 ∈ s.flatMap (fun c =>
      if c = ';' then ['\\', ';'] else
      if c = ',' then ['\\', ','] else [c]),
      c2 ≠ '\r' ∧ c2 ≠ '\n' := by
    intro c2 hc2
    rcases mem_flatMap_esc hc2 with h1 | h1 | h1 | h1
    · subst h1; exact ⟨by decide, by decide⟩
    · subst h1; exact ⟨by decide, by decide⟩
    · subst h1; exact ⟨by decide, by decide⟩
    · exact ⟨ne_cr_of_not_ctl (h c2 h1).1, ne_lf_of_not_ctl (h c2 h1).1⟩
  rw [replaceList_of_head_not_mem '\r' ['\n'] ['\\', 'n'] _
    (fun c2 hc2 => (hs c2 hc2).1)]
  rw [replaceList_of_head_not_mem '\n' [] ['\\', 'n'] _
    (fun c2 hc2 => (hs c2 hc2).2)]

theorem unescape_aux_backslash_x (x : Char) (hx1 : x ≠ ';') (hx2 : x ≠ ',')
    (r2 : Str) :
    ∀ s : Str, (∀ c ∈ s, c ≠ '\\') →
    replaceList ['\\', x] r2 (s.flatMap (fun c =>
      if c = ';' then ['\\', ';'] else
      if c = ',' then ['\\', ','] else [c])) =
    s.flatMap (fun c =>
      if c = ';' then ['\\', ';'] else
      if c = ',' then ['\\', ','] else [c]) := by
  intro s
  induction s with
  | nil => intro hs; rfl
  | cons c cs ih =>
    intro hs
    have ihcs := ih (fun c2 hc2 => hs c2 (by simp [hc2]))
    rw [List.flatMap_cons]
    by_cases h1 : c = ';'
    · rw [if_pos h1]
      simp only [List.cons_append, List.nil_append]
      have hpre1 : (['\\', x].isPrefixOf
          ('\\' :: ';' :: (cs.flatMap (fun c =>
            if c = ';' then ['\\', ';'] else
            if c = ',' then ['\\', ','] else [c])))) = false := by
        simp [List.isPrefixOf_cons₂, beq_eq_false_iff_ne.mpr hx1]
      have hpre2 : (['\\', x].isPrefixOf
          (';' :: (cs.flatMap (fun c =>
            if c = ';' then ['\\', ';'] else
            if c = ',' then ['\\', ','] else [c])))) = false :=
        isPrefixOf_cons_false '\\' [x] ';' _ (by decide)
      rw [replaceList_cons, hpre1]
      simp only [Bool.false_eq_true, if_false]
      rw [replaceList_cons, hpre2]
      simp only [Bool.false_eq_true, if_false]
      rw [ihcs]
    · rw [if_neg h1]
      by_cases h2 : c = ','
      · rw [if_pos h2]
        simp only [List.cons_append, List.nil_append]
        have hpre1 : (['\\', x].isPrefixOf
            ('\\' :: ',' :: (cs.flatMap (fun c =>
              if c = ';' then ['\\', ';'] else
              if c = ',' then ['\\', ','] else [c])))) = false := by
          simp [List.isPrefixOf_cons₂, beq_eq_false_iff_ne.mpr hx2]
        have hpre2 : (['\\', x].isPrefixOf
            (',' :: (cs.flatMap (fun c =>
              if c = ';' then ['\\', ';'] else
              if c = ',' then ['\\', ','] else [c])))) = false :=
          isPrefixOf_cons_false '\\' [x] ',' _ (by decide)
        rw [replaceList_cons, hpre1]
        simp only [Bool.false_eq_true, if_false]
        rw [replaceList_cons, hpre2]
        simp only [Bool.false_eq_true, if_false]
        rw [ihcs]
      · rw [if_neg h2]
        simp only [List.singleton_append]
        have hpre1 : (['\\', x].isPrefixOf
            (c :: (cs.flatMap (fun c =>
              if c = ';' then ['\\', ';'] else
              if c = ',' then ['\\', ','] else [c])))) = false :=
          isPrefixOf_cons_false '\\' [x] c _ (hs c (by simp))
        rw [replaceList_cons, hpre1]
        simp only [Bool.false_eq_true, if_false]
        rw [ihcs]

theorem unescape_aux_comma :
    ∀ s : Str, (∀ c ∈ s, c ≠ '\\') →
    replaceList ['\\', ','] [','] (s.flatMap (fun c =>
      if c = ';' then ['\\', ';'] else
      if c = ',' then ['\\', ','] else [c])) =
    s.flatMap (fun c => if c = ';' then ['\\', ';'] else [c]) := by
  intro s
  induction s with
  | nil => intro hs; rfl
  | cons c cs ih =>
    intro hs
    have ihcs := ih (fun c2 hc2 => hs c2 (by simp [hc2]))
    rw [List.flatMap_cons, List.flatMap_cons]
    by_cases h1 : c = ';'
    · rw [if_pos h1, if_pos h1]
      simp only [List.cons_append, List.nil_append]
      have hpre1 : (['\\', ','].isPrefixOf
          ('\\' :: ';' :: (cs.flatMap (fun c =>
            if c = ';' then ['\\', ';'] else
            if c = ',' then ['\\', ','] else [c])))) = false := by
        simp [List.isPrefixOf_cons₂]
      have hpre2 : (['\\', ','].isPrefixOf
          (';' :: (cs.flatMap (fun c =>
            if c = ';' then ['\\', ';'] else
            if c = ',' then ['\\', ','] else [c])))) = false :=
        isPrefixOf_cons_false '\\' [','] ';' _ (by decide)
      rw [replaceList_cons, hpre1]
      simp only [Bool.false_eq_true, if_false]
      rw [replaceList_cons, hpre2]
      simp only [Bool.false_eq_true, if_false]
      rw [ihcs]
    · rw [if_neg h1, if_neg h1]
      by_cases h2 : c = ','
      · rw [if_pos h2]
        simp only [List.cons_append, List.nil_append]
        have hpre1 : (['\\', ','].isPrefixOf
            ('\\' :: ',' :: (cs.flatMap (fun c =>
              if c = ';' then ['\\', ';'] else
              if c = ',' then ['\\', ','] else [c])))) = true := by
          simp [List.isPrefixOf_cons₂]
        rw [replaceList_cons, hpre1]
        simp only [if_true]
        simp only [List.length_cons, List.length_nil, List.drop_succ_cons,
          List.drop_zero, Nat.add_sub_cancel]
        rw [ihcs]
        rw [h2]
        simp
      · rw [if_neg h2]
        simp only [List.singleton_append]
        have hpre1 : (['\\', ','].isPrefixOf
            (c :: (cs.flatMap (fun c =>
              if c = ';' then ['\\', ';'] else
              if c = ',' then ['\\', ','] else [c])))) = false :=
          isPrefixOf_cons_false '\\' [','] c _ (hs c (by simp))
        rw [replaceList_cons, hpre1]
        simp only [Bool.false_eq_true, if_false]
        rw [ihcs]

theorem unescape_aux_semi :
    ∀ s : Str, (∀ c ∈ s, c ≠ '\\') →
    replaceList ['\\', ';'] [';'] (s.flatMap (fun c =>
      if c = ';' then ['\\', ';'] else [c])) = s := by
  intro s
  induction s with
  | nil => intro hs; rfl
  | cons c cs ih =>
    intro hs
    have ihcs := ih (fun c2 hc2 => hs c2 (by simp [hc2]))
    rw [List.flatMap_cons]
    by_cases h1 : c = ';'
    · rw [if_pos h1]
      simp only [List.cons_append, List.nil_append]
      have hpre1 : (['\\', ';'].isPrefixOf
          ('\\' :: ';' :: (cs.flatMap (fun c =>
            if c = ';' then ['\\', ';'] else [c])))) = true := by
        simp [List.isPrefixOf_cons₂]
      rw [replaceList_cons, hpre1]
      simp only [if_true]
      simp only [List.length_cons, List.length_nil, List.drop_succ_cons,
        List.drop_zero, Nat.add_sub_cancel]
      rw [ihcs]
      rw [h1]
      simp
    · rw [if_neg h1]
      simp only [List.singleton_append]
      have hpre1 : (['\\', ';'].isPrefixOf
          (c :: (cs.flatMap (fun c =>
            if c = ';' then ['\\', ';'] else [c])))) = false :=
        isPrefixOf_cons_false '\\' [';'] c _ (hs c (by simp))
      rw [replaceList_cons, hpre1]
      simp only [Bool.false_eq_true, if_false]
      rw [ihcs]

/-- C3 (amended): escaping then unescaping is the identity on strings
free of control characters and free of backslashes.  (A backslash
followed by `N` or `n` breaks the round trip, which the counterexample
records.) -/
theorem C3_escape_unescape_roundtrip (s : Str)
    (h : ∀ c ∈ s, parser.ctl_char c = false ∧ c ≠ '\\') :
    unescape_chars (escape_chars s) = s := by
  rw [escape_chars_of_plain s h]
  unfold unescape_chars
  have hs2 : ∀ c ∈ s, c ≠ '\\' := fun c hc => (h c hc).2
  have hnocr : ∀ c2 ∈ s.flatMap (fun c =>
      if c = ';' then ['\\', ';'] else
      if c = ',' then ['\\', ','] else [c]), c2 ≠ '\r' := by
    intro c2 hc2
    rcases mem_flatMap_esc hc2 with h1 | h1 | h1 | h1
    · subst h1; decide
    · subst h1; decide
    · subst h1; decide
    · exact ne_cr_of_not_ctl (h c2 h1).1
  rw [unescape_aux_backslash_x 'N' (by decide) (by decide) ['\\', 'n'] s hs2]
  rw [replaceList_of_head_not_mem '\r' ['\n'] ['\n'] _ hnocr]
  rw [unescape_aux_backslash_x 'n' (by decide) (by decide) ['\n'] s hs2]
  rw [unescape_aux_comma s hs2]
  rw [unescape_aux_semi s hs2]
  rw [replaceList_of_head_not_mem '\\' ['\\'] ['\\'] s hs2]

theorem C3_escape_unescape_roundtrip_witness :
    (∀ c ∈ "a;b,c=x".toList, parser.ctl_char c = false ∧ c ≠ '\\') ∧
    unescape_chars (escape_chars "a;b,c=x".toList) = "a;b,c=x".toList :=
  ⟨by decide, C3_escape_unescape_roundtrip "a;b,c=x".toList (by decide)⟩

theorem eol_char_iff {c : Char} :
    parser.eol_char c = true ↔ c = '\r' ∨ c = '\n' := by
  simp [parser.eol_char]

theorem eol_char_false_iff {c : Char} :
    parser.eol_char c = false ↔ c ≠ '\r' ∧ c ≠ '\n' := by
  simp [parser.eol_char]

theorem ws_char_false_iff {c : Char} :
    parser.ws_char c = false ↔ c ≠ ' ' ∧ c ≠ '\t' := by
  simp [parser.ws_char]

theorem eol_char_false_of_iana {c : Char}
    (h : parser.iana_char c = true) : parser.eol_char c = false := by
  rw [eol_char_false_iff]
  constructor
  · intro hh; rw [hh] at h; exact absurd h (by decide)
  · intro hh; rw [hh] at h; exact absurd h (by decide)

theorem ws_char_false_of_iana {c : Char}
    (h : parser.iana_char c = true) : parser.ws_char c = false := by
  rw [ws_char_false_iff]
  constructor
  · intro hh; rw [hh] at h; exact absurd h (by decide)
  · intro hh; rw [hh] at h; exact absurd h (by decide)

theorem ctl_char_false_of_qsafe {c : Char}
    (h : parser.qsafe_char c = true) : parser.ctl_char c = false := by
  unfold parser.qsafe_char at h
  simp only [Bool.and_eq_true, Bool.not_eq_true'] at h
  exact h.2

theorem eol_char_false_of_qsafe {c : Char}
    (h : parser.qsafe_char c = true) : parser.eol_char c = false := by
  have hc := ctl_char_false_of_qsafe h
  rw [eol_char_false_iff]
  exact ⟨ne_cr_of_not_ctl hc, ne_lf_of_not_ctl hc⟩

theorem qsafe_of_safe {c : Char}
    (h : parser.safe_char c = true) : parser.qsafe_char c = true := by
  unfold parser.safe_char at h
  simp only [Bool.and_eq_true] at h
  exact h.2

theorem wfParamI_of_wfParamS {kv : Str × Str} (h : wfParamS kv) :
    wfParamI kv :=
  ⟨h.1, fun c hc => qsafe_of_safe (h.2 c hc)⟩

theorem wfProp_mono {pv1 pv2 : Str × Str → Prop}
    (hmono : ∀ kv, pv1 kv → pv2 kv) {k : Str} {p : Property}
    (h : wfProp pv1 k p) : wfProp pv2 k p := by
  obtain ⟨h1, h2, h3, h4, h5, h6⟩ := h
  exact ⟨h1, h2, h3, fun kv hkv => hmono kv (h4 kv hkv), h5, h6⟩

mutual

theorem WFC_mono {pv1 pv2 : Str × Str → Prop}
    (hmono : ∀ kv, pv1 kv → pv2 kv) :
    ∀ c : Component, WFC pv1 c → WFC pv2 c
  | .mk nm props subs, h => by
    rw [WFC] at h ⊢
    obtain ⟨h1, h2, h3, h4, h5, h6, h7⟩ := h
    exact ⟨h1, h2, h3, h4,
      fun b hb => ⟨(h5 b hb).1,
        fun p hp => wfProp_mono hmono ((h5 b hb).2 p hp)⟩,
      h6, WFCList_mono hmono subs h7⟩

theorem WFCList_mono {pv1 pv2 : Str × Str → Prop}
    (hmono : ∀ kv, pv1 kv → pv2 kv) :
    ∀ l : List Component, WFCList pv1 l → WFCList pv2 l
  | [], h => h
  | c :: cs, h => by
    rw [WFCList] at h ⊢
    exact ⟨WFC_mono hmono c h.1, WFCList_mono hmono cs h.2⟩

end

mutual

theorem equivb_refl : ∀ a : Component, equivb a a = true
  | .mk nm props subs => by
    rw [equivb]
    simp only [Bool.and_eq_true]
    refine ⟨⟨⟨⟨?_, ?_⟩, ?_⟩, ?_⟩, equivbList_refl subs⟩
    · simp
    · simp only [List.all_eq_true]
      intro k hk
      exact List.elem_eq_true_of_mem hk
    · simp only [List.all_eq_true]
      intro k hk
      exact List.elem_eq_true_of_mem hk
    · simp only [List.all_eq_true]
      intro k hk
      simp

theorem equivbList_refl : ∀ l : List Component, equivbList l l = true
  | [] => rfl
  | c :: cs => by
    rw [equivbList]
    rw [equivb_refl c, equivbList_refl cs]
    rfl

end

theorem headOk_nil : headOk [] := Or.inl rfl

theorem headOk_cons {c : Char} {l : Str} (h1 : parser.eol_char c = false)
    (h2 : parser.ws_char c = false) : headOk (c :: l) :=
  Or.inr ⟨c, l, rfl, h1, h2⟩

theorem clean_crlf {t : Str} (hc : Clean t) (hh : headOk t) :
    Clean ('\r' :: '\n' :: t) := by
  rcases hh with rfl | ⟨c, l, rfl, h1, h2⟩
  · exact Clean.hardEnd
  · exact Clean.hard c l h1 h2 hc

theorem clean_append_plain {a t : Str}
    (ha : ∀ c ∈ a, parser.eol_char c = false) (ht : Clean t) :
    Clean (a ++ t) := by
  induction a with
  | nil => exact ht
  | cons c cs ih =>
    exact Clean.plain c _ (ha c (by simp))
      (ih (fun c2 h2 => ha c2 (by simp [h2])))

theorem replaceList_clean_unch (p r : Str)
    (hp : p = ['\r', '\n', '\t'] ∨ p = ['\n', ' '] ∨ p = ['\n', '\t'] ∨
      p = ['\r', ' '] ∨ p = ['\r', '\t']) :
    ∀ t : Str, Clean t → replaceList p r t = t := by
  intro t hc
  induction hc with
  | nil => rfl
  | plain c l hcl hcln ih =>
    rw [replaceList_cons]
    have hpre : p.isPrefixOf (c :: l) = false := by
      obtain ⟨hcr, hlf⟩ := eol_char_false_iff.mp hcl
      rcases hp with rfl | rfl | rfl | rfl | rfl
      · exact isPrefixOf_cons_false '\r' _ c l hcr
      · exact isPrefixOf_cons_false '\n' _ c l hlf
      · exact isPrefixOf_cons_false '\n' _ c l hlf
      · exact isPrefixOf_cons_false '\r' _ c l hcr
      · exact isPrefixOf_cons_false '\r' _ c l hcr
    rw [hpre]
    simp only [Bool.false_eq_true, if_false]
    rw [ih]
  | hardEnd =>
    rcases hp with rfl | rfl | rfl | rfl | rfl <;>
      simp [replaceList_cons, List.isPrefixOf_cons₂, replaceList_nil]
  | hard c l hecl hwcl hclean ih =>
    obtain ⟨hcr, hlf⟩ := eol_char_false_iff.mp hecl
    obtain ⟨hsp, htb⟩ := ws_char_false_iff.mp hwcl
    have hpre1 : p.isPrefixOf ('\r' :: '\n' :: c :: l) = false := by
      rcases hp with rfl | rfl | rfl | rfl | rfl
      · rw [List.isPrefixOf_cons₂, List.isPrefixOf_cons₂,
          List.isPrefixOf_cons₂]
        simp [beq_eq_false_iff_ne.mpr (fun hh => htb hh.symm)]
      · exact isPrefixOf_cons_false '\n' _ '\r' _ (by decide)
      · exact isPrefixOf_cons_false '\n' _ '\r' _ (by decide)
      · rw [List.isPrefixOf_cons₂, List.isPrefixOf_cons₂]
        simp
      · rw [List.isPrefixOf_cons₂, List.isPrefixOf_cons₂]
        simp
    have hpre2 : p.isPrefixOf ('\n' :: c :: l) = false := by
      rcases hp with rfl | rfl | rfl | rfl | rfl
      · exact isPrefixOf_cons_false '\r' _ '\n' _ (by decide)
      · rw [List.isPrefixOf_cons₂, List.isPrefixOf_cons₂]
        simp [beq_eq_false_iff_ne.mpr (fun hh => hsp hh.symm)]
      · rw [List.isPrefixOf_cons₂, List.isPrefixOf_cons₂]
        simp [beq_eq_false_iff_ne.mpr (fun hh => htb hh.symm)]
      · exact isPrefixOf_cons_false '\r' _ '\n' _ (by decide)
      · exact isPrefixOf_cons_false '\r' _ '\n' _ (by decide)
    rw [replaceList_cons, hpre1]
    simp only [Bool.false_eq_true, if_false]
    rw [replaceList_cons, hpre2]
    simp only [Bool.false_eq_true, if_false]
    rw [ih]

theorem step1_cons_plain (r : Str) (c : Char) (hc : c ≠ '\r') (t : Str) :
    replaceList ['\r', '\n', ' '] r (c :: t) =
      c :: replaceList ['\r', '\n', ' '] r t := by
  rw [replaceList_cons]
  rw [isPrefixOf_cons_false '\r' _ c t hc]
  simp

theorem step1_plain (r : Str) {a : Str} (ha : ∀ c ∈ a, c ≠ '\r') (t : Str) :
    replaceList ['\r', '\n', ' '] r (a ++ t) =
      a ++ replaceList ['\r', '\n', ' '] r t := by
  induction a with
  | nil => rfl
  | cons c cs ih =>
    simp only [List.cons_append]
    rw [step1_cons_plain r c (ha c (by simp)) _]
    rw [ih (fun c2 h2 => ha c2 (by simp [h2]))]

theorem step1_crlf {t : Str} (r : Str) (hh : headOk t) :
    replaceList ['\r', '\n', ' '] r ('\r' :: '\n' :: t) =
      '\r' :: '\n' :: replaceList ['\r', '\n', ' '] r t := by
  have hpre1 : (['\r', '\n', ' '].isPrefixOf ('\r' :: '\n' :: t)) = false := by
    rcases hh with rfl | ⟨c, l, rfl, h1, h2⟩
    · decide
    · rw [List.isPrefixOf_cons₂, List.isPrefixOf_cons₂,
        List.isPrefixOf_cons₂]
      have hcsp : c ≠ ' ' := (ws_char_false_iff.mp h2).1
      simp [beq_eq_false_iff_ne.mpr (fun hhh => hcsp hhh.symm)]
  rw [replaceList_cons, hpre1]
  simp only [Bool.false_eq_true, if_false]
  rw [step1_cons_plain r '\n' (by decide) t]

theorem writeParams_no_eol {ps : List (Str × Str)}
    (h : ∀ kv ∈ ps, wfParamI kv) :
    ∀ c ∈ writeParams ps, parser.eol_char c = false := by
  intro c hc
  unfold writeParams at hc
  rw [List.mem_flatMap] at hc
  obtain ⟨kv, hkv, hmem⟩ := hc
  rw [List.mem_cons] at hmem
  rcases hmem with rfl | hmem
  · decide
  · rw [List.mem_append] at hmem
    rcases hmem with hm | hm
    · exact eol_char_false_of_iana ((h kv hkv).1.2 c hm)
    · rw [List.mem_cons] at hm
      rcases hm with rfl | hm
      · decide
      · exact eol_char_false_of_qsafe ((h kv hkv).2 c hm)

theorem no_cr_of_no_eol {a : Str}
    (h : ∀ c ∈ a, parser.eol_char c = false) : ∀ c ∈ a, c ≠ '\r' :=
  fun c hc => (eol_char_false_iff.mp (h c hc)).1

theorem raw_value_no_crlf {p : Property} (h : noEolStr p.raw_value) :
    ∀ c ∈ p.raw_value, c ≠ '\r' ∧ c ≠ '\n' :=
  fun c hc => eol_char_false_iff.mp (h c hc)

theorem step1_propLine (k : Str) (p : Property)
    (hw : wfProp wfParamI k p) (t : Str) (ht : headOk t) :
    replaceList ['\r', '\n', ' '] [] (writePropLine k p ++ t) =
      writePropLineNF k p ++ replaceList ['\r', '\n', ' '] [] t := by
  obtain ⟨hk, hraw_ne, hraw_noeol, hparams, hnodup, hgroup⟩ := hw
  have hka : ∀ c ∈ k, c ≠ '\r' :=
    no_cr_of_no_eol (fun c hc => eol_char_false_of_iana (hk.2 c hc))
  have hwpa : ∀ c ∈ writeParams p.params, c ≠ '\r' :=
    no_cr_of_no_eol (writeParams_no_eol hparams)
  have hrawa : ∀ c ∈ p.raw_value, c ≠ '\r' ∧ c ≠ '\n' :=
    raw_value_no_crlf hraw_noeol
  unfold writePropLine writePropLineNF
  cases hg : p.prop_group with
  | some g =>
    rw [hg] at hgroup
    have hga : ∀ c ∈ g, c ≠ '\r' :=
      no_cr_of_no_eol (fun c hc => eol_char_false_of_iana (hgroup.2 c hc))
    simp only [hg, List.append_assoc, List.cons_append, List.nil_append]
    rw [step1_plain [] hga _]
    rw [step1_cons_plain [] '.' (by decide) _]
    rw [step1_plain [] hka _]
    rw [step1_plain [] hwpa _]
    rw [step1_cons_plain [] ':' (by decide) _]
    rw [show fold_line p.raw_value = foldAux p.raw_value 0 from rfl]
    rw [step1_foldAux p.raw_value hrawa 0 _]
    rw [step1_crlf [] ht]
  | none =>
    simp only [hg, List.append_assoc, List.cons_append, List.nil_append]
    rw [step1_plain [] hka _]
    rw [step1_plain [] hwpa _]
    rw [step1_cons_plain [] ':' (by decide) _]
    rw [show fold_line p.raw_value = foldAux p.raw_value 0 from rfl]
    rw [step1_foldAux p.raw_value hrawa 0 _]
    rw [step1_crlf [] ht]

theorem clean_propLineNF (k : Str) (p : Property)
    (hw : wfProp wfParamI k p) (t : Str) (hc : Clean t) (ht : headOk t) :
    Clean (writePropLineNF k p ++ t) := by
  obtain ⟨hk, hraw_ne, hraw_noeol, hparams, hnodup, hgroup⟩ := hw
  have hke : ∀ c ∈ k, parser.eol_char c = false :=
    fun c hcc => eol_char_false_of_iana (hk.2 c hcc)
  have hwpe := writeParams_no_eol hparams
  have hcrlf : Clean ('\r' :: '\n' :: t) := clean_crlf hc ht
  unfold writePropLineNF
  cases hg : p.prop_group with
  | some g =>
    rw [hg] at hgroup
    have hge : ∀ c ∈ g, parser.eol_char c = false :=
      fun c hcc => eol_char_false_of_iana (hgroup.2 c hcc)
    simp only [hg, List.append_assoc, List.cons_append, List.nil_append]
    apply clean_append_plain hge
    apply Clean.plain '.' _ (by decide)
    apply clean_append_plain hke
    apply clean_append_plain hwpe
    apply Clean.plain ':' _ (by decide)
    exact clean_append_plain hraw_noeol hcrlf
  | none =>
    simp only [hg, List.append_assoc, List.cons_append, List.nil_append]
    apply clean_append_plain hke
    apply clean_append_plain hwpe
    apply Clean.plain ':' _ (by decide)
    exact clean_append_plain hraw_noeol hcrlf

theorem headOk_propLine (k : Str) (p : Property) (x : Str)
    (hw : wfProp wfParamI k p) : headOk (writePropLine k p ++ x) := by
  obtain ⟨hk, hraw_ne, hraw_noeol, hparams, hnodup, hgroup⟩ := hw
  unfold writePropLine
  cases hg : p.prop_group with
  | some g =>
    rw [hg] at hgroup
    obtain ⟨hgne, hgiana⟩ := hgroup
    match g, hgne with
    | g0 :: g1, _ =>
      have h0 : parser.iana_char g0 = true := hgiana g0 (by simp)
      simp only [List.append_assoc, List.cons_append, List.nil_append]
      exact headOk_cons (eol_char_false_of_iana h0) (ws_char_false_of_iana h0)
  | none =>
    obtain ⟨hkne, hkiana⟩ := hk
    match k, hkne with
    | k0 :: k1, _ =>
      have h0 : parser.iana_char k0 = true := hkiana k0 (by simp)
      simp only [List.append_assoc, List.cons_append, List.nil_append]
      exact headOk_cons (eol_char_false_of_iana h0) (ws_char_false_of_iana h0)

theorem headOk_propLineNF (k : Str) (p : Property) (x : Str)
    (hw : wfProp wfParamI k p) : headOk (writePropLineNF k p ++ x) := by
  obtain ⟨hk, hraw_ne, hraw_noeol, hparams, hnodup, hgroup⟩ := hw
  unfold writePropLineNF
  cases hg : p.prop_group with
  | some g =>
    rw [hg] at hgroup
    obtain ⟨hgne, hgiana⟩ := hgroup
    match g, hgne with
    | g0 :: g1, _ =>
      have h0 : parser.iana_char g0 = true := hgiana g0 (by simp)
      simp only [List.append_assoc, List.cons_append, List.nil_append]
      exact headOk_cons (eol_char_false_of_iana h0) (ws_char_false_of_iana h0)
  | none =>
    obtain ⟨hkne, hkiana⟩ := hk
    match k, hkne with
    | k0 :: k1, _ =>
      have h0 : parser.iana_char k0 = true := hkiana k0 (by simp)
      simp only [List.append_assoc, List.cons_append, List.nil_append]
      exact headOk_cons (eol_char_false_of_iana h0) (ws_char_false_of_iana h0)

theorem write_component_head (c : Component) (x : Str) :
    ∃ l, write_component c ++ x = 'B' :: l := by
  obtain ⟨nm, pr, sb⟩ := c
  exact ⟨_, rfl⟩

theorem writeNF_head (c : Component) (x : Str) :
    ∃ l, writeNF c ++ x = 'B' :: l := by
  obtain ⟨nm, pr, sb⟩ := c
  exact ⟨_, rfl⟩

theorem headOk_write_component (c : Component) (x : Str) :
    headOk (write_component c ++ x) := by
  obtain ⟨l, hl⟩ := write_component_head c x
  rw [hl]
  exact headOk_cons (by decide) (by decide)

theorem headOk_writeNF (c : Component) (x : Str) :
    headOk (writeNF c ++ x) := by
  obtain ⟨l, hl⟩ := writeNF_head c x
  rw [hl]
  exact headOk_cons (by decide) (by decide)

theorem step1_bucket (k : Str) :
    ∀ (ps : List Property), (∀ p ∈ ps, wfProp wfParamI k p) →
    ∀ t, headOk t →
    replaceList ['\r', '\n', ' '] []
        ((ps.flatMap (fun p => writePropLine k p)) ++ t) =
      (ps.flatMap (fun p => writePropLineNF k p)) ++
        replaceList ['\r', '\n', ' '] [] t := by
  intro ps
  induction ps with
  | nil => intro hps t ht; simp
  | cons p0 ps1 ih =>
    intro hps t ht
    simp only [List.flatMap_cons, List.append_assoc]
    have hnext : headOk ((ps1.flatMap (fun p => writePropLine k p)) ++ t) := by
      cases ps1 with
      | nil => simpa using ht
      | cons p1 ps2 =>
        simp only [List.flatMap_cons, List.append_assoc]
        exact headOk_propLine k p1 _ (hps p1 (by simp))
    rw [step1_propLine k p0 (hps p0 (by simp)) _ hnext]
    rw [ih (fun p hp => hps p (by simp [hp])) t ht]

theorem clean_bucket (k : Str) :
    ∀ (ps : List Property), (∀ p ∈ ps, wfProp wfParamI k p) →
    ∀ t, Clean t → headOk t →
    Clean ((ps.flatMap (fun p => writePropLineNF k p)) ++ t) := by
  intro ps
  induction ps with
  | nil => intro hps t hc ht; simpa using hc
  | cons p0 ps1 ih =>
    intro hps t hc ht
    simp only [List.flatMap_cons, List.append_assoc]
    have hnext0 : Clean ((ps1.flatMap (fun p => writePropLineNF k p)) ++ t) :=
      ih (fun p hp => hps p (by simp [hp])) t hc ht
    have hnext1 : headOk ((ps1.flatMap (fun p => writePropLineNF k p)) ++ t) := by
      cases ps1 with
      | nil => simpa using ht
      | cons p1 ps2 =>
        simp only [List.flatMap_cons, List.append_assoc]
        exact headOk_propLineNF k p1 _ (hps p1 (by simp))
    exact clean_propLineNF k p0 (hps p0 (by simp)) _ hnext0 hnext1

theorem headOk_propsAll (bs : List (Str × List Property)) (x : Str)
    (hne : bs ≠ [])
    (hb : ∀ b ∈ bs, b.2 ≠ [] ∧ ∀ p ∈ b.2, wfProp wfParamI b.1 p) :
    headOk (writePropsAll bs ++ x) := by
  match bs, hne with
  | (k, ps) :: bs1, _ =>
    have h1 := hb (k, ps) (by simp)
    match ps, h1.1 with
    | p0 :: ps1, _ =>
      unfold writePropsAll
      simp only [List.flatMap_cons, List.append_assoc]
      exact headOk_propLine k p0 _ (h1.2 p0 (by simp))

theorem headOk_propsAllNF (bs : List (Str × List Property)) (x : Str)
    (hne : bs ≠ [])
    (hb : ∀ b ∈ bs, b.2 ≠ [] ∧ ∀ p ∈ b.2, wfProp wfParamI b.1 p) :
    headOk (writePropsAllNF bs ++ x) := by
  match bs, hne with
  | (k, ps) :: bs1, _ =>
    have h1 := hb (k, ps) (by simp)
    match ps, h1.1 with
    | p0 :: ps1, _ =>
      unfold writePropsAllNF
      simp only [List.flatMap_cons, List.append_assoc]
      exact headOk_propLineNF k p0 _ (h1.2 p0 (by simp))

theorem step1_propsAll :
    ∀ (bs : List (Str × List Property)),
    (∀ b ∈ bs, b.2 ≠ [] ∧ ∀ p ∈ b.2, wfProp wfParamI b.1 p) →
    ∀ t, headOk t →
    replaceList ['\r', '\n', ' '] [] (writePropsAll bs ++ t) =
      writePropsAllNF bs ++ replaceList ['\r', '\n', ' '] [] t := by
  intro bs
  induction bs with
  | nil => intro hb t ht; simp [writePropsAll, writePropsAllNF]
  | cons b bs1 ih =>
    intro hb t ht
    obtain ⟨k, ps⟩ := b
    unfold writePropsAll writePropsAllNF
    simp only [List.flatMap_cons, List.append_assoc]
    have hnext : headOk ((bs1.flatMap
        (fun b => b.2.flatMap (fun p => writePropLine b.1 p))) ++ t) := by
      cases hbs1 : bs1 with
      | nil => simpa using ht
      | cons b1 bs2 =>
        exact headOk_propsAll (b1 :: bs2) t (by simp)
          (fun b2 hb2 => hb b2 (by simp [hbs1, hb2]))
    rw [step1_bucket k ps (fun p hp => (hb (k, ps) (by simp)).2 p hp) _ hnext]
    have := ih (fun b2 hb2 => hb b2 (by simp [hb2])) t ht
    unfold writePropsAll writePropsAllNF at this
    rw [this]

theorem clean_propsAll :
    ∀ (bs : List (Str × List Property)),
    (∀ b ∈ bs, b.2 ≠ [] ∧ ∀ p ∈ b.2, wfProp wfParamI b.1 p) →
    ∀ t, Clean t → headOk t →
    Clean (writePropsAllNF bs ++ t) := by
  intro bs
  induction bs with
  | nil => intro hb t hc ht; simpa [writePropsAllNF] using hc
  | cons b bs1 ih =>
    intro hb t hc ht
    obtain ⟨k, ps⟩ := b
    unfold writePropsAllNF
    simp only [List.flatMap_cons, List.append_assoc]
    have hnext0 : Clean ((bs1.flatMap
        (fun b => b.2.flatMap (fun p => writePropLineNF b.1 p))) ++ t) := by
      have := ih (fun b2 hb2 => hb b2 (by simp [hb2])) t hc ht
      unfold writePropsAllNF at this
      exact this
    have hnext1 : headOk ((bs1.flatMap
        (fun b => b.2.flatMap (fun p => writePropLineNF b.1 p))) ++ t) := by
      cases hbs1 : bs1 with
      | nil => simpa using ht
      | cons b1 bs2 =>
        exact headOk_propsAllNF (b1 :: bs2) t (by simp)
          (fun b2 hb2 => hb b2 (by simp [hbs1, hb2]))
    exact clean_bucket k ps
      (fun p hp => (hb (k, ps) (by simp)).2 p hp) _ hnext0 hnext1

mutual

theorem step1_write :
    ∀ (c : Component), WFC wfParamI c → ∀ t, headOk t →
    replaceList ['\r', '\n', ' '] [] (write_component c ++ t) =
      writeNF c ++ replaceList ['\r', '\n', ' '] [] t
  | .mk nm props subs, hw, t, ht => by
    rw [WFC] at hw
    obtain ⟨hn1, hn2, hp1, hp2, hp3, hs1, hs2⟩ := hw
    rw [write_component, writeNF]
    have hEndLit : "END:".toList = ['E', 'N', 'D', ':'] := rfl
    have hBeginLit : "BEGIN:".toList = ['B', 'E', 'G', 'I', 'N', ':'] := rfl
    simp only [hEndLit, hBeginLit, List.append_assoc, List.cons_append,
      List.nil_append]
    rw [step1_cons_plain [] 'B' (by decide) _]
    rw [step1_cons_plain [] 'E' (by decide) _]
    rw [step1_cons_plain [] 'G' (by decide) _]
    rw [step1_cons_plain [] 'I' (by decide) _]
    rw [step1_cons_plain [] 'N' (by decide) _]
    rw [step1_cons_plain [] ':' (by decide) _]
    rw [step1_plain [] (no_cr_of_no_eol hn2) _]
    have hEnd : headOk ('E' :: 'N' :: 'D' :: ':' :: (nm ++ '\r' :: '\n' :: t)) :=
      headOk_cons (by decide) (by decide)
    have hsubsHead : headOk (writeSubs subs ++
        ('E' :: 'N' :: 'D' :: ':' :: (nm ++ '\r' :: '\n' :: t))) := by
      cases subs with
      | nil => simpa using hEnd
      | cons b bs =>
        rw [writeSubs]
        simp only [List.append_assoc]
        exact headOk_write_component b _
    have hpropsHead : headOk (writePropsAll props ++ (writeSubs subs ++
        ('E' :: 'N' :: 'D' :: ':' :: (nm ++ '\r' :: '\n' :: t)))) :=
      headOk_propsAll props _ hp1 hp3
    rw [step1_crlf [] hpropsHead]
    have hpa := step1_propsAll props hp3 _ hsubsHead
    rw [hpa]
    have hsub := step1_writeSubs subs hs2 _ hEnd
    simp only [List.append_assoc] at hsub
    rw [hsub]
    rw [step1_cons_plain [] 'E' (by decide) _]
    rw [step1_cons_plain [] 'N' (by decide) _]
    rw [step1_cons_plain [] 'D' (by decide) _]
    rw [step1_cons_plain [] ':' (by decide) _]
    rw [step1_plain [] (no_cr_of_no_eol hn2) _]
    rw [step1_crlf [] ht]

theorem step1_writeSubs :
    ∀ (l : List Component), WFCList wfParamI l → ∀ t, headOk t →
    replaceList ['\r', '\n', ' '] [] (writeSubs l ++ t) =
      writeNFSubs l ++ replaceList ['\r', '\n', ' '] [] t
  | [], _, t, ht => by simp [writeSubs, writeNFSubs]
  | c :: cs, hwl, t, ht => by
    rw [WFCList] at hwl
    rw [writeSubs, writeNFSubs]
    simp only [List.append_assoc]
    have hnext : headOk (writeSubs cs ++ t) := by
      cases cs with
      | nil => simpa [writeSubs] using ht
      | cons c2 cs2 =>
        rw [writeSubs]
        simp only [List.append_assoc]
        exact headOk_write_component c2 _
    rw [step1_write c hwl.1 _ hnext]
    rw [step1_writeSubs cs hwl.2 t ht]

end

mutual

theorem clean_writeNF :
    ∀ (c : Component), WFC wfParamI c → ∀ t, Clean t → headOk t →
    Clean (writeNF c ++ t)
  | .mk nm props subs, hw, t, hc, ht => by
    rw [WFC] at hw
    obtain ⟨hn1, hn2, hp1, hp2, hp3, hs1, hs2⟩ := hw
    rw [writeNF]
    have hEndLit : "END:".toList = ['E', 'N', 'D', ':'] := rfl
    have hBeginLit : "BEGIN:".toList = ['B', 'E', 'G', 'I', 'N', ':'] := rfl
    simp only [hEndLit, hBeginLit, List.append_assoc, List.cons_append,
      List.nil_append]
    have hEndClean : Clean ('E' :: 'N' :: 'D' :: ':' ::
        (nm ++ '\r' :: '\n' :: t)) := by
      apply Clean.plain 'E' _ (by decide)
      apply Clean.plain 'N' _ (by decide)
      apply Clean.plain 'D' _ (by decide)
      apply Clean.plain ':' _ (by decide)
      exact clean_append_plain hn2 (clean_crlf hc ht)
    have hEndHead : headOk ('E' :: 'N' :: 'D' :: ':' ::
        (nm ++ '\r' :: '\n' :: t)) := headOk_cons (by decide) (by decide)
    have hsubsClean : Clean (writeNFSubs subs ++
        ('E' :: 'N' :: 'D' :: ':' :: (nm ++ '\r' :: '\n' :: t))) :=
      clean_writeNFSubs subs hs2 _ hEndClean hEndHead
    have hsubsHead : headOk (writeNFSubs subs ++
        ('E' :: 'N' :: 'D' :: ':' :: (nm ++ '\r' :: '\n' :: t))) := by
      cases subs with
      | nil => simpa [writeNFSubs] using hEndHead
      | cons b bs =>
        rw [writeNFSubs]
        simp only [List.append_assoc]
        exact headOk_writeNF b _
    have hpropsClean : Clean (writePropsAllNF props ++ (writeNFSubs subs ++
        ('E' :: 'N' :: 'D' :: ':' :: (nm ++ '\r' :: '\n' :: t)))) :=
      clean_propsAll props hp3 _ hsubsClean hsubsHead
    have hpropsHead : headOk (writePropsAllNF props ++ (writeNFSubs subs ++
        ('E' :: 'N' :: 'D' :: ':' :: (nm ++ '\r' :: '\n' :: t)))) :=
      headOk_propsAllNF props _ hp1 hp3
    apply Clean.plain 'B' _ (by decide)
    apply Clean.plain 'E' _ (by decide)
    apply Clean.plain 'G' _ (by decide)
    apply Clean.plain 'I' _ (by decide)
    apply Clean.plain 'N' _ (by decide)
    apply Clean.plain ':' _ (by decide)
    apply clean_append_plain hn2
    exact clean_crlf hpropsClean hpropsHead

theorem clean_writeNFSubs :
    ∀ (l : List Component), WFCList wfParamI l → ∀ t, Clean t → headOk t →
    Clean (writeNFSubs l ++ t)
  | [], _, t, hc, ht => by simpa [writeNFSubs] using hc
  | c :: cs, hwl, t, hc, ht => by
    rw [WFCList] at hwl
    rw [writeNFSubs]
    simp only [List.append_assoc]
    have hnextClean : Clean (writeNFSubs cs ++ t) :=
      clean_writeNFSubs cs hwl.2 t hc ht
    have hnextHead : headOk (writeNFSubs cs ++ t) := by
      cases cs with
      | nil => simpa [writeNFSubs] using ht
      | cons c2 cs2 =>
        rw [writeNFSubs]
        simp only [List.append_assoc]
        exact headOk_writeNF c2 _
    exact clean_writeNF c hwl.1 _ hnextClean hnextHead

end

/-- Unfolding the serialized form of a well-formed component tree
removes exactly the folding breaks: the result is the serialization
with the folding pass removed. -/
theorem unfold_write (c : Component) (hw : WFC wfParamI c) :
    unfold_lines (write_component c) = writeNF c := by
  unfold unfold_lines
  have h1 : replaceList ['\r', '\n', ' '] [] (write_component c) =
      writeNF c := by
    have := step1_write c hw [] headOk_nil
    simpa only [replaceList_nil, List.append_nil] using this
  rw [h1]
  have hclean : Clean (writeNF c) := by
    have := clean_writeNF c hw [] Clean.nil headOk_nil
    simpa using this
  rw [replaceList_clean_unch ['\r', '\n', '\t'] [] (by simp) _ hclean]
  rw [replaceList_clean_unch ['\n', ' '] [] (by simp) _ hclean]
  rw [replaceList_clean_unch ['\n', '\t'] [] (by simp) _ hclean]
  rw [replaceList_clean_unch ['\r', ' '] [] (by simp) _ hclean]
  rw [replaceList_clean_unch ['\r', '\t'] [] (by simp) _ hclean]

theorem takeWhile_append_exact {p : Char → Bool} :
    ∀ {a rest : Str}, (∀ c ∈ a, p c = true) →
    (rest = [] ∨ ∃ c l, rest = c :: l ∧ p c = false) →
    (a ++ rest).takeWhile p = a ∧ (a ++ rest).dropWhile p = rest := by
  intro a
  induction a with
  | nil =>
    intro rest ha hrest
    rcases hrest with rfl | ⟨c, l, rfl, hc⟩
    · exact ⟨rfl, rfl⟩
    · simp only [List.nil_append]
      rw [List.takeWhile_cons, List.dropWhile_cons, hc]
      exact ⟨rfl, rfl⟩
  | cons x a1 ih =>
    intro rest ha hrest
    have hx : p x = true := ha x (by simp)
    simp only [List.cons_append]
    rw [List.takeWhile_cons, List.dropWhile_cons, hx]
    obtain ⟨h1, h2⟩ := ih (fun c hc => ha c (by simp [hc])) hrest
    simp only [if_true]
    exact ⟨by rw [h1], by rw [h2]⟩

theorem token1_exact {p : Char → Bool} {a rest : Str} (ha : a ≠ [])
    (hall : ∀ c ∈ a, p c = true)
    (hrest : rest = [] ∨ ∃ c l, rest = c :: l ∧ p c = false) :
    parser.token1 p (a ++ rest) = some (a, rest) := by
  obtain ⟨h1, h2⟩ := takeWhile_append_exact hall hrest
  unfold parser.token1
  rw [h1, h2]
  match a, ha with
  | c :: a1, _ => rfl

theorem trailing_id {rest : Str} (hh : headOk rest) :
    parser.trailing rest = rest := by
  rcases hh with rfl | ⟨c, l, rfl, h1, h2⟩
  · rfl
  · unfold parser.trailing
    rw [List.dropWhile_cons]
    rw [h1, h2]
    simp

theorem trailing_crlf {rest : Str} (hh : headOk rest) :
    parser.trailing ('\r' :: '\n' :: rest) = rest := by
  unfold parser.trailing
  rw [List.dropWhile_cons]
  simp only [show (parser.eol_char '\r' || parser.ws_char '\r') = true by decide,
    if_true]
  rw [List.dropWhile_cons]
  simp only [show (parser.eol_char '\n' || parser.ws_char '\n') = true by decide,
    if_true]
  have := trailing_id hh
  unfold parser.trailing at this
  exact this

theorem eols_crlf {rest : Str}
    (hne : rest = [] ∨ ∃ c l, rest = c :: l ∧ parser.eol_char c = false) :
    parser.eols ('\r' :: '\n' :: rest) = some rest := by
  unfold parser.eols
  simp only [show parser.eol_char '\r' = true by decide, if_true]
  rw [List.dropWhile_cons]
  simp only [show parser.eol_char '\r' = true by decide, if_true]
  rw [List.dropWhile_cons]
  simp only [show parser.eol_char '\n' = true by decide, if_true]
  rcases hne with rfl | ⟨c, l, rfl, hc⟩
  · rfl
  · rw [List.dropWhile_cons, hc]
    simp

theorem eols_none {s : Str}
    (h : s = [] ∨ ∃ c l, s = c :: l ∧ parser.eol_char c = false) :
    parser.eols s = none := by
  rcases h with rfl | ⟨c, l, rfl, hc⟩
  · rfl
  · unfold parser.eols
    simp [hc]

theorem isPrefixOf_self_append : ∀ (p x : Str), p.isPrefixOf (p ++ x) = true := by
  intro p
  induction p with
  | nil => intro x; simp [List.isPrefixOf]
  | cons c cs ih =>
    intro x
    simp only [List.cons_append, List.isPrefixOf_cons₂]
    rw [ih x]
    simp

theorem exists_cons_of_isPrefixOf {a : Char} {p2 x : Str}
    (h : (a :: p2).isPrefixOf x = true) : ∃ l, x = a :: l := by
  match x with
  | [] => exact absurd h (by simp [List.isPrefixOf])
  | c :: l =>
    rw [List.isPrefixOf_cons₂] at h
    simp only [Bool.and_eq_true, beq_iff_eq] at h
    exact ⟨l, by rw [h.1]⟩

theorem component_none_of_not_begin (fuel : Nat) (s : Str)
    (h : "BEGIN:".toList.isPrefixOf s = false) :
    parser.component fuel s = none := by
  cases fuel with
  | zero => rfl
  | succ fuel =>
    rw [parser.component]
    unfold parser.component_begin
    rw [h]
    simp

theorem components_none (fuel : Nat) (s : Str)
    (h : "BEGIN:".toList.isPrefixOf s = false) (hh : headOk s) :
    parser.components fuel s = ([], s) := by
  cases fuel with
  | zero =>
    rw [parser.components, trailing_id hh]
  | succ fuel =>
    rw [parser.components, component_none_of_not_begin fuel s h,
      trailing_id hh]

theorem components_tail_stop (fuel : Nat) (s : Str)
    (h : s = [] ∨ ∃ c l, s = c :: l ∧ parser.eol_char c = false) :
    parser.components_tail fuel s = ([], s) := by
  cases fuel with
  | zero => rfl
  | succ fuel =>
    rw [parser.components_tail, eols_none h]

theorem notPrefixBEGIN (y z : Str) (hy : ∀ c ∈ y, c ≠ ':')
    (hyB : y ≠ "BEGIN".toList) :
    "BEGIN:".toList.isPrefixOf (y ++ ':' :: z) = false := by
  rw [Bool.eq_false_iff]
  intro h
  match y, hy, hyB with
  | [], hy, hyB =>
    simp only [List.nil_append, show "BEGIN:".toList =
      ['B', 'E', 'G', 'I', 'N', ':'] from rfl,
      List.isPrefixOf_cons₂, Bool.and_eq_true, beq_iff_eq] at h
    exact absurd h.1 (by decide)
  | [a], hy, hyB =>
    simp only [List.cons_append, List.nil_append, show "BEGIN:".toList =
      ['B', 'E', 'G', 'I', 'N', ':'] from rfl,
      List.isPrefixOf_cons₂, Bool.and_eq_true, beq_iff_eq] at h
    exact absurd h.2.1 (by decide)
  | [a, b], hy, hyB =>
    simp only [List.cons_append, List.nil_append, show "BEGIN:".toList =
      ['B', 'E', 'G', 'I', 'N', ':'] from rfl,
      List.isPrefixOf_cons₂, Bool.and_eq_true, beq_iff_eq] at h
    exact absurd h.2.2.1 (by decide)
  | [a, b, c], hy, hyB =>
    simp only [List.cons_append, List.nil_append, show "BEGIN:".toList =
      ['B', 'E', 'G', 'I', 'N', ':'] from rfl,
      List.isPrefixOf_cons₂, Bool.and_eq_true, beq_iff_eq] at h
    exact absurd h.2.2.2.1 (by decide)
  | [a, b, c, d], hy, hyB =>
    simp only [List.cons_append, List.nil_append, show "BEGIN:".toList =
      ['B', 'E', 'G', 'I', 'N', ':'] from rfl,
      List.isPrefixOf_cons₂, Bool.and_eq_true, beq_iff_eq] at h
    exact absurd h.2.2.2.2.1 (by decide)
  | [a, b, c, d, e], hy, hyB =>
    simp only [List.cons_append, List.nil_append, show "BEGIN:".toList =
      ['B', 'E', 'G', 'I', 'N', ':'] from rfl,
      List.isPrefixOf_cons₂, Bool.and_eq_true, beq_iff_eq] at h
    obtain ⟨h1, h2, h3, h4, h5, -⟩ := h
    subst h1
    subst h2
    subst h3
    subst h4
    subst h5
    exact hyB rfl
  | a :: b :: c :: d :: e :: f :: y1, hy, hyB =>
    simp only [List.cons_append, show "BEGIN:".toList =
      ['B', 'E', 'G', 'I', 'N', ':'] from rfl,
      List.isPrefixOf_cons₂, Bool.and_eq_true, beq_iff_eq] at h
    exact (hy f (by simp)) h.2.2.2.2.2.1.symm

theorem notPrefixEND (y z : Str) (hy : ∀ c ∈ y, c ≠ ':')
    (hyE : y ≠ "END".toList) :
    "END:".toList.isPrefixOf (y ++ ':' :: z) = false := by
  rw [Bool.eq_false_iff]
  intro h
  match y, hy, hyE with
  | [], hy, hyE =>
    simp only [List.nil_append, show "END:".toList =
      ['E', 'N', 'D', ':'] from rfl,
      List.isPrefixOf_cons₂, Bool.and_eq_true, beq_iff_eq] at h
    exact absurd h.1 (by decide)
  | [a], hy, hyE =>
    simp only [List.cons_append, List.nil_append, show "END:".toList =
      ['E', 'N', 'D', ':'] from rfl,
      List.isPrefixOf_cons₂, Bool.and_eq_true, beq_iff_eq] at h
    exact absurd h.2.1 (by decide)
  | [a, b], hy, hyE =>
    simp only [List.cons_append, List.nil_append, show "END:".toList =
      ['E', 'N', 'D', ':'] from rfl,
      List.isPrefixOf_cons₂, Bool.and_eq_true, beq_iff_eq] at h
    exact absurd h.2.2.1 (by decide)
  | [a, b, c], hy, hyE =>
    simp only [List.cons_append, List.nil_append, show "END:".toList =
      ['E', 'N', 'D', ':'] from rfl,
      List.isPrefixOf_cons₂, Bool.and_eq_true, beq_iff_eq] at h
    obtain ⟨h1, h2, h3, -⟩ := h
    subst h1
    subst h2
    subst h3
    exact hyE rfl
  | a :: b :: c :: d :: y1, hy, hyE =>
    simp only [List.cons_append, show "END:".toList =
      ['E', 'N', 'D', ':'] from rfl,
      List.isPrefixOf_cons₂, Bool.and_eq_true, beq_iff_eq] at h
    exact (hy d (by simp)) h.2.2.2.1.symm

theorem prop_guard_false (y z : Str) (hy : ∀ c ∈ y, c ≠ ':')
    (hyB : y ≠ "BEGIN".toList) (hyE : y ≠ "END".toList) :
    ("BEGIN:".toList.isPrefixOf (y ++ ':' :: z) ||
     "END:".toList.isPrefixOf (y ++ ':' :: z)) = false := by
  rw [notPrefixBEGIN y z hy hyB, notPrefixEND y z hy hyE]
  rfl

theorem ne_colon_of_iana {c : Char} (h : parser.iana_char c = true) :
    c ≠ ':' := by
  intro hh
  rw [hh] at h
  exact absurd h (by decide)

theorem ne_colon_of_safe {c : Char} (h : parser.safe_char c = true) :
    c ≠ ':' := by
  intro hh
  rw [hh] at h
  exact absurd h (by decide)

theorem writeParams_colonfree {ps : List (Str × Str)}
    (h : ∀ kv ∈ ps, wfParamS kv) : ∀ c ∈ writeParams ps, c ≠ ':' := by
  intro c hc
  unfold writeParams at hc
  rw [List.mem_flatMap] at hc
  obtain ⟨kv, hkv, hmem⟩ := hc
  rw [List.mem_cons] at hmem
  rcases hmem with rfl | hmem
  · decide
  · rw [List.mem_append] at hmem
    rcases hmem with hm | hm
    · exact ne_colon_of_iana ((h kv hkv).1.2 c hm)
    · rw [List.mem_cons] at hm
      rcases hm with rfl | hm
      · decide
      · exact ne_colon_of_safe ((h kv hkv).2 c hm)

theorem ne_lit_of_mem {a : Char} {y L : Str} (hmem : a ∈ y) (hnot : a ∉ L) :
    y ≠ L := by
  intro h
  rw [h] at hmem
  exact hnot hmem

theorem insertKV_append_new (m : List (Str × Str)) (k v : Str)
    (h : k ∉ m.map Prod.fst) : insertKV m k v = m ++ [(k, v)] := by
  induction m with
  | nil => rfl
  | cons kv0 rest ih =>
    obtain ⟨k0, v0⟩ := kv0
    simp only [List.map_cons, List.mem_cons] at h
    push_neg at h
    unfold insertKV
    rw [if_neg (fun hh => h.1 hh.symm)]
    rw [ih h.2]
    rfl

theorem buildMap_foldl_disjoint :
    ∀ (ps : List (Str × Str)) (m : List (Str × Str)),
    (ps.map Prod.fst).Nodup →
    (∀ k ∈ ps.map Prod.fst, k ∉ m.map Prod.fst) →
    ps.foldl (fun m2 kv => insertKV m2 kv.1 kv.2) m = m ++ ps := by
  intro ps
  induction ps with
  | nil => intro m h1 h2; simp
  | cons kv ps1 ih =>
    intro m h1 h2
    obtain ⟨k, v⟩ := kv
    simp only [List.map_cons, List.nodup_cons] at h1
    rw [List.foldl_cons]
    have hnew : k ∉ m.map Prod.fst := h2 k (by simp)
    rw [insertKV_append_new m k v hnew]
    rw [ih (m ++ [(k, v)]) h1.2 ?_]
    · simp
    · intro k2 hk2
      simp only [List.map_append, List.mem_append, List.map_cons,
        List.map_nil, List.mem_cons]
      push_neg
      refine ⟨fun hh => h2 k2 (by simp [hk2]) hh, ?_, by simp⟩
      intro hh
      rw [hh] at hk2
      exact h1.1 hk2

theorem buildMap_eq_self (ps : List (Str × Str))
    (h : (ps.map Prod.fst).Nodup) : buildMap ps = ps := by
  unfold buildMap
  rw [buildMap_foldl_disjoint ps [] h (by simp)]
  rfl

theorem quoted_string_none {c : Char} {l : Str} (hc : c ≠ '"') :
    parser.quoted_string (c :: l) = none := by
  unfold parser.quoted_string
  split
  · rename_i rest heq
    rw [List.cons.injEq] at heq
    exact absurd heq.1 hc
  · rfl

theorem writeParams_cons (kv : Str × Str) (ps : List (Str × Str)) :
    writeParams (kv :: ps) =
      ';' :: (kv.1 ++ '=' :: kv.2) ++ writeParams ps := rfl

theorem params_reload :
    ∀ (ps : List (Str × Str)), (∀ kv ∈ ps, wfParamS kv) →
    ∀ z : Str, (∃ l, z = ':' :: l) →
    parser.params (writeParams ps ++ z) = (ps, z) := by
  intro ps
  induction ps with
  | nil =>
    intro hps z hz
    obtain ⟨l, rfl⟩ := hz
    rw [show writeParams [] ++ ':' :: l = ':' :: l from rfl]
    rw [parser.params_cons]
    rw [if_neg (by decide)]
  | cons kv ps1 ih =>
    intro hps z hz
    obtain ⟨l, rfl⟩ := hz
    obtain ⟨hkey, hval⟩ := hps kv (by simp)
    rw [writeParams_cons]
    simp only [List.cons_append, List.append_assoc]
    rw [parser.params_cons]
    rw [if_pos rfl]
    have hrestHead : ∃ c2 l2,
        writeParams ps1 ++ ':' :: l = c2 :: l2 ∧
        parser.safe_char c2 = false ∧ parser.iana_char c2 = false ∧
        c2 ≠ '"' := by
      cases hps1 : ps1 with
      | nil => exact ⟨':', l, rfl, by decide, by decide, by decide⟩
      | cons kv2 ps2 =>
        refine ⟨';', (kv2.1 ++ '=' :: kv2.2) ++ (writeParams ps2 ++ ':' :: l),
          ?_, by decide, by decide, by decide⟩
        rw [writeParams_cons]
        simp only [List.cons_append, List.append_assoc]
    obtain ⟨c2, l2, heq2, hc2safe, hc2iana, hc2q⟩ := hrestHead
    have hparam : parser.param (kv.1 ++ '=' :: (kv.2 ++
        (writeParams ps1 ++ ':' :: l))) =
        some ((kv.1, kv.2), writeParams ps1 ++ ':' :: l) := by
      unfold parser.param
      rw [token1_exact hkey.1 hkey.2 (Or.inr ⟨'=', _, rfl, by decide⟩)]
      simp only [parser.param_value]
      have hq : parser.quoted_string (kv.2 ++ (writeParams ps1 ++
          ':' :: l)) = none := by
        cases hkv2 : kv.2 with
        | nil =>
          rw [List.nil_append, heq2]
          exact quoted_string_none hc2q
        | cons v0 v1 =>
          simp only [List.cons_append]
          exact quoted_string_none
            (fun hh => by
              have := hval v0 (by simp [hkv2])
              rw [hh] at this
              exact absurd this (by decide))
      rw [hq]
      obtain ⟨htw, hdw⟩ := takeWhile_append_exact (p := parser.safe_char)
        hval (Or.inr ⟨c2, l2, heq2, hc2safe⟩)
      rw [htw, hdw]
    rw [hparam]
    simp only
    rw [ih (fun kv2 hkv2 => hps kv2 (by simp [hkv2])) (':' :: l) ⟨l, rfl⟩]

theorem value_char_true_of_no_eol {c : Char}
    (h : parser.eol_char c = false) : parser.value_char c = true := by
  unfold parser.value_char
  rw [h]
  rfl

theorem prop_reload (k : Str) (p : Property) (hw : wfProp wfParamS k p)
    (x : Str) :
    parser.prop (writePropLineNF k p ++ x) =
      some ((k, p), '\r' :: '\n' :: x) := by
  obtain ⟨pparams, praw, pgroup⟩ := p
  obtain ⟨hk, hraw_ne, hraw_noeol, hparams, hnodup, hgroup⟩ := hw
  have hrawv : ∀ c ∈ praw, parser.value_char c = true :=
    fun c hc => value_char_true_of_no_eol (hraw_noeol c hc)
  have hwpHead : ∃ c2 l2,
      writeParams pparams ++ ':' :: (praw ++ '\r' :: '\n' :: x) = c2 :: l2 ∧
      parser.iana_char c2 = false ∧ c2 ≠ '.' := by
    cases hpp : pparams with
    | nil => exact ⟨':', praw ++ '\r' :: '\n' :: x, rfl, by decide, by decide⟩
    | cons kv2 ps2 =>
      refine ⟨';', (kv2.1 ++ '=' :: kv2.2) ++
        (writeParams ps2 ++ ':' :: (praw ++ '\r' :: '\n' :: x)),
        ?_, by decide, by decide⟩
      rw [writeParams_cons]
      simp only [List.cons_append, List.append_assoc]
  obtain ⟨c2, l2, heq2, hc2iana, hc2dot⟩ := hwpHead
  have hvalue : parser.value (praw ++ '\r' :: '\n' :: x) =
      some (praw, '\r' :: '\n' :: x) := by
    unfold parser.value
    exact token1_exact hraw_ne hrawv (Or.inr ⟨'\r', _, rfl, by decide⟩)
  have hps := params_reload pparams hparams
    (':' :: (praw ++ '\r' :: '\n' :: x)) ⟨_, rfl⟩
  cases pgroup with
  | some g =>
    have hgiana : ianaStr g := hgroup
    unfold writePropLineNF
    simp only [List.cons_append, List.append_assoc, List.nil_append]
    have hguard : ("BEGIN:".toList.isPrefixOf
        (g ++ ('.' :: (k ++ (writeParams pparams ++
          ':' :: (praw ++ '\r' :: '\n' :: x))))) ||
        "END:".toList.isPrefixOf
        (g ++ ('.' :: (k ++ (writeParams pparams ++
          ':' :: (praw ++ '\r' :: '\n' :: x)))))) = false := by
      have hy : ∀ c ∈ g ++ ('.' :: (k ++ writeParams pparams)), c ≠ ':' := by
        intro c hc
        simp only [List.mem_append, List.mem_cons] at hc
        rcases hc with hc | hc | hc | hc
        · exact ne_colon_of_iana (hgiana.2 c hc)
        · subst hc; decide
        · exact ne_colon_of_iana (hk.2 c hc)
        · exact writeParams_colonfree hparams c hc
      have hyB : g ++ ('.' :: (k ++ writeParams pparams)) ≠
          "BEGIN".toList :=
        ne_lit_of_mem (a := '.') (by simp) (by decide)
      have hyE : g ++ ('.' :: (k ++ writeParams pparams)) ≠
          "END".toList :=
        ne_lit_of_mem (a := '.') (by simp) (by decide)
      have := prop_guard_false (g ++ ('.' :: (k ++ writeParams pparams)))
        (praw ++ '\r' :: '\n' :: x) hy hyB hyE
      simpa only [List.cons_append, List.append_assoc, List.nil_append]
        using this
    unfold parser.prop
    rw [hguard]
    simp only [Bool.false_eq_true, if_false]
    have hgopt : parser.group_opt
        (g ++ ('.' :: (k ++ (writeParams pparams ++
          ':' :: (praw ++ '\r' :: '\n' :: x))))) =
        (some g, k ++ (writeParams pparams ++
          ':' :: (praw ++ '\r' :: '\n' :: x))) := by
      unfold parser.group_opt
      rw [token1_exact hgiana.1 hgiana.2 (Or.inr ⟨'.', _, rfl, by decide⟩)]
      rfl
    have htk : parser.token1 parser.iana_char
        (k ++ (writeParams pparams ++
          ':' :: (praw ++ '\r' :: '\n' :: x))) =
        some (k, writeParams pparams ++
          ':' :: (praw ++ '\r' :: '\n' :: x)) :=
      token1_exact hk.1 hk.2 (Or.inr ⟨c2, l2, heq2, hc2iana⟩)
    simp only [hgopt, htk, hps, hvalue]
    rw [buildMap_eq_self pparams hnodup]
  | none =>
    have hkBE : (k = "BEGIN".toList ∨ k = "END".toList) → pparams ≠ [] :=
      hgroup
    unfold writePropLineNF
    simp only [List.cons_append, List.append_assoc, List.nil_append]
    have hguard : ("BEGIN:".toList.isPrefixOf
        (k ++ (writeParams pparams ++
          ':' :: (praw ++ '\r' :: '\n' :: x))) ||
        "END:".toList.isPrefixOf
        (k ++ (writeParams pparams ++
          ':' :: (praw ++ '\r' :: '\n' :: x)))) = false := by
      have hy : ∀ c ∈ k ++ writeParams pparams, c ≠ ':' := by
        intro c hc
        rcases List.mem_append.mp hc with hc | hc
        · exact ne_colon_of_iana (hk.2 c hc)
        · exact writeParams_colonfree hparams c hc
      have hyB : k ++ writeParams pparams ≠ "BEGIN".toList := by
        cases hpp : pparams with
        | nil =>
          simp only [show writeParams [] = [] from rfl, List.append_nil]
          intro hh
          exact (hkBE (Or.inl hh)) hpp
        | cons kv2 ps2 =>
          apply ne_lit_of_mem (a := ';') ?_ (by decide)
          rw [writeParams_cons]
          simp
      have hyE : k ++ writeParams pparams ≠ "END".toList := by
        cases hpp : pparams with
        | nil =>
          simp only [show writeParams [] = [] from rfl, List.append_nil]
          intro hh
          exact (hkBE (Or.inr hh)) hpp
        | cons kv2 ps2 =>
          apply ne_lit_of_mem (a := ';') ?_ (by decide)
          rw [writeParams_cons]
          simp
      have := prop_guard_false (k ++ writeParams pparams)
        (praw ++ '\r' :: '\n' :: x) hy hyB hyE
      simpa only [List.cons_append, List.append_assoc, List.nil_append]
        using this
    unfold parser.prop
    rw [hguard]
    simp only [Bool.false_eq_true, if_false]
    have hgopt : parser.group_opt
        (k ++ (writeParams pparams ++
          ':' :: (praw ++ '\r' :: '\n' :: x))) =
        (none, k ++ (writeParams pparams ++
          ':' :: (praw ++ '\r' :: '\n' :: x))) := by
      unfold parser.group_opt
      rw [token1_exact hk.1 hk.2 (Or.inr ⟨c2, l2, heq2, hc2iana⟩)]
      rw [heq2]
      split
      · rename_i g0 s0 hh
        injection hh with h1
        injection h1 with hg hs
        subst hg
        subst hs
        split
        · rename_i s2 hh2
          injection hh2 with hcc hll
          exact absurd hcc hc2dot
        · rfl
      · rename_i hh
        exact Option.noConfusion hh
    have htk : parser.token1 parser.iana_char
        (k ++ (writeParams pparams ++
          ':' :: (praw ++ '\r' :: '\n' :: x))) =
        some (k, writeParams pparams ++
          ':' :: (praw ++ '\r' :: '\n' :: x)) :=
      token1_exact hk.1 hk.2 (Or.inr ⟨c2, l2, heq2, hc2iana⟩)
    simp only [hgopt, htk, hps, hvalue]
    rw [buildMap_eq_self pparams hnodup]

theorem prop_none_of_begin (l : Str) :
    parser.prop ("BEGIN:".toList ++ l) = none := by
  unfold parser.prop
  rw [isPrefixOf_self_append]
  rfl

theorem prop_none_of_end (l : Str) :
    parser.prop ("END:".toList ++ l) = none := by
  unfold parser.prop
  rw [isPrefixOf_self_append]
  simp

theorem propLineNF_ex (k : Str) (p : Property) (hw : wfProp wfParamS k p)
    (x : Str) :
    ∃ c l, writePropLineNF k p ++ x = c :: l ∧ parser.eol_char c = false ∧
      parser.ws_char c = false := by
  obtain ⟨pp, rv, pg⟩ := p
  obtain ⟨hk, h2, h3, h4, h5, hgroup⟩ := hw
  cases pg with
  | some g =>
    have hgiana : ianaStr g := hgroup
    obtain ⟨c, lg, hcl⟩ : ∃ c lg, g = c :: lg := by
      cases hgg : g with
      | nil => exact absurd hgg hgiana.1
      | cons c lg => exact ⟨c, lg, rfl⟩
    have hc := hgiana.2 c (by rw [hcl]; simp)
    have hshape : writePropLineNF k ⟨pp, rv, some g⟩ ++ x =
        c :: (lg ++ '.' :: (k ++ (writeParams pp ++
          ':' :: (rv ++ '\r' :: '\n' :: x)))) := by
      unfold writePropLineNF
      rw [hcl]
      simp [List.cons_append, List.append_assoc]
    exact ⟨c, _, hshape, eol_char_false_of_iana hc, ws_char_false_of_iana hc⟩
  | none =>
    obtain ⟨c, lk, hcl⟩ : ∃ c lk, k = c :: lk := by
      cases hkk : k with
      | nil => exact absurd hkk hk.1
      | cons c lk => exact ⟨c, lk, rfl⟩
    have hc := hk.2 c (by rw [hcl]; simp)
    have hshape : writePropLineNF k ⟨pp, rv, none⟩ ++ x =
        c :: (lk ++ (writeParams pp ++
          ':' :: (rv ++ '\r' :: '\n' :: x))) := by
      unfold writePropLineNF
      rw [hcl]
      simp [List.cons_append, List.append_assoc]
    exact ⟨c, _, hshape, eol_char_false_of_iana hc, ws_char_false_of_iana hc⟩

theorem props_tail_reload :
    ∀ (L : List (Str × Property)),
    (∀ kp ∈ L, wfProp wfParamS kp.1 kp.2) →
    ∀ t : Str,
    (∃ c l, t = c :: l ∧ parser.eol_char c = false ∧
      parser.ws_char c = false) →
    parser.prop t = none →
    parser.props_tail ('\r' :: '\n' ::
      (L.flatMap (fun kp => writePropLineNF kp.1 kp.2) ++ t)) =
      (L, '\r' :: '\n' :: t) := by
  intro L
  induction L with
  | nil =>
    intro _ t ht hstop
    obtain ⟨c, l, rfl, hc1, hc2⟩ := ht
    rw [parser.props_tail_eq]
    simp only [List.flatMap_nil, List.nil_append]
    rw [eols_crlf (Or.inr ⟨c, l, rfl, hc1⟩)]
    simp only [hstop]
  | cons kp L1 ih =>
    intro hL t ht hstop
    have hkp := hL kp (by simp)
    have hL1 : ∀ kp2 ∈ L1, wfProp wfParamS kp2.1 kp2.2 :=
      fun kp2 h2 => hL kp2 (by simp [h2])
    simp only [List.flatMap_cons, List.append_assoc]
    obtain ⟨c0, l0, heq0, he0, hw0⟩ := propLineNF_ex kp.1 kp.2 hkp
      (L1.flatMap (fun kp2 => writePropLineNF kp2.1 kp2.2) ++ t)
    rw [parser.props_tail_eq]
    rw [eols_crlf (Or.inr ⟨c0, l0, heq0, he0⟩)]
    have hprop := prop_reload kp.1 kp.2 hkp
      (L1.flatMap (fun kp2 => writePropLineNF kp2.1 kp2.2) ++ t)
    have hih := ih hL1 t ht hstop
    simp only [hprop, hih]

theorem flatPairs_lines (bs : List (Str × List Property)) :
    (flatPairs bs).flatMap (fun kp => writePropLineNF kp.1 kp.2) =
      writePropsAllNF bs := by
  unfold flatPairs writePropsAllNF
  simp only [List.flatMap_assoc, List.flatMap_map, Function.comp]

theorem flatPairs_ex (bs : List (Str × List Property)) (hne : bs ≠ [])
    (hb : ∀ b ∈ bs, b.2 ≠ []) : ∃ kp L1, flatPairs bs = kp :: L1 :=
  match bs, hne with
  | (k, ps) :: bs1, _ => by
    have h1 := hb (k, ps) (by simp)
    match ps, h1 with
    | p0 :: ps1, _ =>
      refine ⟨(k, p0), ps1.map (fun p => (k, p)) ++ flatPairs bs1, ?_⟩
      unfold flatPairs
      simp [List.flatMap_cons]

theorem flatPairs_wf (bs : List (Str × List Property))
    (hb : ∀ b ∈ bs, b.2 ≠ [] ∧ ∀ p ∈ b.2, wfProp wfParamS b.1 p) :
    ∀ kp ∈ flatPairs bs, wfProp wfParamS kp.1 kp.2 := by
  intro kp hkp
  unfold flatPairs at hkp
  rw [List.mem_flatMap] at hkp
  obtain ⟨b, hbmem, hkp2⟩ := hkp
  rw [List.mem_map] at hkp2
  obtain ⟨p, hp, rfl⟩ := hkp2
  exact (hb b hbmem).2 p hp

theorem props_reload (bs : List (Str × List Property)) (hne : bs ≠ [])
    (hb : ∀ b ∈ bs, b.2 ≠ [] ∧ ∀ p ∈ b.2, wfProp wfParamS b.1 p)
    (t : Str)
    (ht : ∃ c l, t = c :: l ∧ parser.eol_char c = false ∧
      parser.ws_char c = false)
    (hstop : parser.prop t = none) :
    parser.props (writePropsAllNF bs ++ t) = some (flatPairs bs, t) := by
  obtain ⟨kp0, L1, hfp⟩ := flatPairs_ex bs hne (fun b hb2 => (hb b hb2).1)
  have hwf := flatPairs_wf bs hb
  have hlines := flatPairs_lines bs
  rw [← hlines]
  rw [hfp]
  simp only [List.flatMap_cons, List.append_assoc]
  unfold parser.props
  have hwf0 : wfProp wfParamS kp0.1 kp0.2 := hwf kp0 (by rw [hfp]; simp)
  have hp0 := prop_reload kp0.1 kp0.2 hwf0
    (L1.flatMap (fun kp => writePropLineNF kp.1 kp.2) ++ t)
  have hwfL1 : ∀ kp ∈ L1, wfProp wfParamS kp.1 kp.2 :=
    fun kp h => hwf kp (by rw [hfp]; simp [h])
  have htail := props_tail_reload L1 hwfL1 t ht hstop
  simp only [hp0, htail]
  obtain ⟨c, l, rfl, hc1, hc2⟩ := ht
  rw [trailing_crlf (headOk_cons hc1 hc2)]

theorem headOk_eol {t : Str} (h : headOk t) :
    t = [] ∨ ∃ c l, t = c :: l ∧ parser.eol_char c = false := by
  rcases h with rfl | ⟨c, l, rfl, h1, h2⟩
  · exact Or.inl rfl
  · exact Or.inr ⟨c, l, rfl, h1⟩

theorem isPrefixOf_false_of_head_ne {a b : Char} {as bs : Str}
    (h : a ≠ b) : (a :: as).isPrefixOf (b :: bs) = false := by
  rw [List.isPrefixOf_cons₂]
  rw [beq_eq_false_iff_ne.mpr h]
  rw [Bool.false_and]

theorem notBegin_of_end (l : Str) :
    "BEGIN:".toList.isPrefixOf ("END:".toList ++ l) = false := by
  rw [show "END:".toList ++ l = 'E' :: (['N', 'D', ':'] ++ l) from rfl]
  rw [show "BEGIN:".toList = 'B' :: ['E', 'G', 'I', 'N', ':'] from rfl]
  exact isPrefixOf_false_of_head_ne (by decide)

theorem headOk_end (l : Str) : headOk ("END:".toList ++ l) := by
  rw [show "END:".toList ++ l = 'E' :: (['N', 'D', ':'] ++ l) from rfl]
  exact headOk_cons (by decide) (by decide)

theorem pushProp_append_new (m : List (Str × List Property)) (k : Str)
    (v : Property) (h : k ∉ m.map Prod.fst) :
    pushProp m k v = m ++ [(k, [v])] := by
  induction m with
  | nil => rfl
  | cons b rest ih =>
    obtain ⟨k0, ps⟩ := b
    simp only [List.map_cons, List.mem_cons] at h
    push_neg at h
    unfold pushProp
    rw [if_neg (fun hh => h.1 hh.symm)]
    rw [ih h.2]
    rfl

theorem pushProp_append_exist (m : List (Str × List Property)) (k : Str)
    (vs : List Property) (v : Property) (h : k ∉ m.map Prod.fst) :
    pushProp (m ++ [(k, vs)]) k v = m ++ [(k, vs ++ [v])] := by
  induction m with
  | nil =>
    simp only [List.nil_append]
    unfold pushProp
    rw [if_pos rfl]
  | cons b rest ih =>
    obtain ⟨k0, ps⟩ := b
    simp only [List.map_cons, List.mem_cons] at h
    push_neg at h
    simp only [List.cons_append]
    unfold pushProp
    rw [if_neg (fun hh => h.1 hh.symm)]
    rw [ih h.2]

theorem pushProp_bucket (k : Str) :
    ∀ (ps : List Property) (m : List (Str × List Property))
      (vs : List Property), k ∉ m.map Prod.fst →
    (ps.map (fun p => (k, p))).foldl
      (fun m2 kp => pushProp m2 kp.1 kp.2) (m ++ [(k, vs)]) =
      m ++ [(k, vs ++ ps)] := by
  intro ps
  induction ps with
  | nil => intro m vs h; simp
  | cons p ps1 ih =>
    intro m vs h
    simp only [List.map_cons, List.foldl_cons]
    rw [pushProp_append_exist m k vs p h]
    rw [ih m (vs ++ [p]) h]
    simp

theorem flatPairs_cons (b : Str × List Property)
    (bs : List (Str × List Property)) :
    flatPairs (b :: bs) = b.2.map (fun p => (b.1, p)) ++ flatPairs bs := by
  unfold flatPairs
  rw [List.flatMap_cons]

theorem props_rebuild_aux :
    ∀ (bs : List (Str × List Property)) (m : List (Str × List Property)),
    (bs.map Prod.fst).Nodup →
    (∀ b ∈ bs, b.2 ≠ []) →
    (∀ k2 ∈ bs.map Prod.fst, k2 ∉ m.map Prod.fst) →
    (flatPairs bs).foldl (fun m2 kp => pushProp m2 kp.1 kp.2) m = m ++ bs := by
  intro bs
  induction bs with
  | nil => intro m _ _ _; simp [flatPairs]
  | cons b bs1 ih =>
    intro m h1 h2 h3
    obtain ⟨k, ps⟩ := b
    simp only [List.map_cons, List.nodup_cons] at h1
    have hpsne : ps ≠ [] := h2 (k, ps) (by simp)
    obtain ⟨p0, ps1, rfl⟩ : ∃ p0 ps1, ps = p0 :: ps1 := by
      cases ps with
      | nil => exact absurd rfl hpsne
      | cons p0 ps1 => exact ⟨p0, ps1, rfl⟩
    have hknew : k ∉ m.map Prod.fst := h3 k (by simp)
    rw [flatPairs_cons]
    rw [List.foldl_append]
    have hfirst : ((p0 :: ps1).map (fun p => ((k, p0 :: ps1).1, p))).foldl
        (fun m2 kp => pushProp m2 kp.1 kp.2) m = m ++ [(k, p0 :: ps1)] := by
      simp only [List.map_cons, List.foldl_cons]
      rw [pushProp_append_new m k p0 hknew]
      rw [pushProp_bucket k ps1 m [p0] hknew]
      simp
    rw [hfirst]
    have h3' : ∀ k2 ∈ bs1.map Prod.fst,
        k2 ∉ (m ++ [(k, p0 :: ps1)]).map Prod.fst := by
      intro k2 hk2
      simp only [List.map_append, List.mem_append, List.map_cons,
        List.map_nil, List.mem_cons]
      push_neg
      refine ⟨fun hh => h3 k2 (by simp [hk2]) hh, ?_, by simp⟩
      intro hh
      rw [hh] at hk2
      exact h1.1 hk2
    rw [ih (m ++ [(k, p0 :: ps1)]) h1.2
      (fun b2 hb2 => h2 b2 (by simp [hb2])) h3']
    simp

theorem props_rebuild (bs : List (Str × List Property))
    (h1 : (bs.map Prod.fst).Nodup) (h2 : ∀ b ∈ bs, b.2 ≠ []) :
    (flatPairs bs).foldl (fun m2 kp => pushProp m2 kp.1 kp.2) [] = bs := by
  rw [props_rebuild_aux bs [] h1 h2 (by simp)]
  rfl

mutual

theorem reload_component :
    ∀ (c : Component), WFC wfParamS c →
    ∀ fuel : Nat, needFuel c ≤ fuel →
    ∀ t : Str, headOk t →
    parser.component fuel (writeNF c ++ t) = some (c, t)
  | .mk nm props subs, hw, fuel, hfuel, t, ht => by
    rw [WFC] at hw
    obtain ⟨hn1, hn2, hp1, hp2, hp3, hs1, hs2⟩ := hw
    rw [show needFuel (Component.mk nm props subs) =
      2 + needFuelList subs from rfl] at hfuel
    obtain ⟨f, rfl⟩ : ∃ f, fuel = f + 1 := ⟨fuel - 1, by omega⟩
    rw [writeNF]
    simp only [List.append_assoc, List.cons_append, List.nil_append]
    have hvch : ∀ c ∈ nm, parser.value_char c = true :=
      fun c hc => value_char_true_of_no_eol (hn2 c hc)
    have hIfromS : ∀ b ∈ props, b.2 ≠ [] ∧
        ∀ p ∈ b.2, wfProp wfParamI b.1 p :=
      fun b hb => ⟨(hp3 b hb).1,
        fun p hp => wfProp_mono (fun kv hkv => wfParamI_of_wfParamS hkv)
          ((hp3 b hb).2 p hp)⟩
    have hhead2 : headOk (writePropsAllNF props ++ (writeNFSubs subs ++
        ("END:".toList ++ (nm ++ '\r' :: '\n' :: t)))) :=
      headOk_propsAllNF props _ hp1 hIfromS
    have hcb : parser.component_begin ("BEGIN:".toList ++
        (nm ++ '\r' :: '\n' :: (writePropsAllNF props ++
          (writeNFSubs subs ++
            ("END:".toList ++ (nm ++ '\r' :: '\n' :: t)))))) =
        some (nm, writePropsAllNF props ++ (writeNFSubs subs ++
          ("END:".toList ++ (nm ++ '\r' :: '\n' :: t)))) := by
      unfold parser.component_begin parser.value
      rw [if_pos (isPrefixOf_self_append _ _)]
      rw [show ∀ R : Str, ("BEGIN:".toList ++ R).drop 6 = R from fun R => by
        rw [show (6 : Nat) = ("BEGIN:".toList).length from rfl]
        exact List.drop_left _ _]
      rw [token1_exact hn1 hvch (Or.inr ⟨'\r', _, rfl, by decide⟩)]
      simp only [trailing_crlf hhead2]
    have ht' : ∃ c l, writeNFSubs subs ++
        ("END:".toList ++ (nm ++ '\r' :: '\n' :: t)) = c :: l ∧
        parser.eol_char c = false ∧ parser.ws_char c = false := by
      cases subs with
      | nil =>
        exact ⟨'E', ['N', 'D', ':'] ++ (nm ++ '\r' :: '\n' :: t),
          rfl, by decide, by decide⟩
      | cons c1 cs =>
        obtain ⟨l1, hl1⟩ := writeNF_head c1 (writeNFSubs cs ++
          ("END:".toList ++ (nm ++ '\r' :: '\n' :: t)))
        refine ⟨'B', l1, ?_, by decide, by decide⟩
        rw [show writeNFSubs (c1 :: cs) = writeNF c1 ++ writeNFSubs cs
          from rfl]
        rw [List.append_assoc]
        exact hl1
    have hstop' : parser.prop (writeNFSubs subs ++
        ("END:".toList ++ (nm ++ '\r' :: '\n' :: t))) = none := by
      cases subs with
      | nil =>
        rw [show writeNFSubs [] = [] from rfl, List.nil_append]
        exact prop_none_of_end _
      | cons c1 cs =>
        rw [show writeNFSubs (c1 :: cs) = writeNF c1 ++ writeNFSubs cs
          from rfl]
        obtain ⟨nm1, pr1, sb1⟩ := c1
        rw [writeNF]
        simp only [List.append_assoc]
        exact prop_none_of_begin _
    have hprops := props_reload props hp1 hp3
      (writeNFSubs subs ++ ("END:".toList ++ (nm ++ '\r' :: '\n' :: t)))
      ht' hstop'
    have hcomps := reload_components subs hs2 hs1 f (by omega)
      ("END:".toList ++ (nm ++ '\r' :: '\n' :: t)) (headOk_end _)
      (notBegin_of_end _)
    have hce : parser.component_end
        ("END:".toList ++ (nm ++ '\r' :: '\n' :: t)) = some (nm, t) := by
      unfold parser.component_end parser.value
      rw [if_pos (isPrefixOf_self_append _ _)]
      rw [show ∀ R : Str, ("END:".toList ++ R).drop 4 = R from fun R => by
        rw [show (4 : Nat) = ("END:".toList).length from rfl]
        exact List.drop_left _ _]
      rw [token1_exact hn1 hvch (Or.inr ⟨'\r', _, rfl, by decide⟩)]
      simp only [trailing_crlf ht]
    rw [parser.component]
    simp only [hcb, hprops, hcomps, hce]
    rw [props_rebuild props hp2 (fun b hb => (hp3 b hb).1)]

theorem reload_components :
    ∀ (l : List Component), WFCList wfParamS l → l.length ≤ 1 →
    ∀ fuel : Nat, needFuelList l + 1 ≤ fuel →
    ∀ t : Str, headOk t → "BEGIN:".toList.isPrefixOf t = false →
    parser.components fuel (writeNFSubs l ++ t) = (l, t)
  | [], _, _, fuel, hfuel, t, ht, hB => by
    rw [show writeNFSubs [] = [] from rfl, List.nil_append]
    exact components_none fuel t hB ht
  | [c1], hwl, _, fuel, hfuel, t, ht, hB => by
    rw [WFCList] at hwl
    rw [show needFuelList [c1] = needFuel c1 + 0 from rfl] at hfuel
    obtain ⟨f, rfl⟩ : ∃ f, fuel = f + 1 := ⟨fuel - 1, by omega⟩
    rw [show writeNFSubs [c1] = writeNF c1 ++ writeNFSubs [] from rfl]
    rw [show writeNFSubs ([] : List Component) = [] from rfl,
      List.append_nil]
    rw [parser.components]
    have hc1 := reload_component c1 hwl.1 f (by omega) t ht
    simp only [hc1]
    rw [components_tail_stop f t (headOk_eol ht)]
    simp only [trailing_id ht]
  | c1 :: c2 :: cs, _, hlen, _, _, _, _, _ => by
    exact absurd hlen (by simp [List.length_cons])

end

theorem mem_takeWhile {p : Char → Bool} :
    ∀ {s : Str} {c : Char}, c ∈ s.takeWhile p → p c = true := by
  intro s
  induction s with
  | nil => intro c hc; simp [List.takeWhile] at hc
  | cons x xs ih =>
    intro c hc
    rw [List.takeWhile_cons] at hc
    cases hx : p x with
    | true =>
      rw [hx] at hc
      simp only [if_true] at hc
      rcases List.mem_cons.mp hc with rfl | hc2
      · exact hx
      · exact ih hc2
    | false =>
      rw [hx] at hc
      simp at hc

theorem token1_image {p : Char → Bool} {s a r : Str}
    (h : parser.token1 p s = some (a, r)) :
    a ≠ [] ∧ (∀ c ∈ a, p c = true) ∧ s = a ++ r := by
  unfold parser.token1 at h
  cases heq : s.takeWhile p with
  | nil =>
    rw [heq] at h
    exact absurd h (by simp)
  | cons c cs =>
    simp only [heq] at h
    rw [Option.some.injEq, Prod.mk.injEq] at h
    obtain ⟨h1, h2⟩ := h
    subst h1
    subst h2
    refine ⟨by simp, ?_, ?_⟩
    · intro x hx
      rw [← heq] at hx
      exact mem_takeWhile hx
    · rw [← heq]
      exact (List.takeWhile_append_dropWhile p s).symm

theorem eol_char_false_of_value {c : Char}
    (h : parser.value_char c = true) : parser.eol_char c = false := by
  unfold parser.value_char at h
  cases he : parser.eol_char c with
  | false => rfl
  | true => rw [he] at h; exact absurd h (by decide)

theorem value_image {s v r : Str} (h : parser.value s = some (v, r)) :
    v ≠ [] ∧ noEolStr v ∧ s = v ++ r := by
  unfold parser.value at h
  obtain ⟨h1, h2, h3⟩ := token1_image h
  exact ⟨h1, fun c hc => eol_char_false_of_value (h2 c hc), h3⟩

theorem quoted_string_image {s q r : Str}
    (h : parser.quoted_string s = some (q, r)) :
    ∀ c ∈ q, parser.qsafe_char c = true := by
  unfold parser.quoted_string at h
  split at h
  · rename_i rest
    split at h
    · rename_i r2 heq2
      rw [Option.some.injEq, Prod.mk.injEq] at h
      obtain ⟨h1, h2⟩ := h
      subst h1
      intro c hc
      exact mem_takeWhile hc
    · exact absurd h (by simp)
  · exact absurd h (by simp)

theorem param_value_image (s : Str) :
    ∀ c ∈ (parser.param_value s).1, parser.qsafe_char c = true := by
  intro c hc
  unfold parser.param_value at hc
  cases hq : parser.quoted_string s with
  | some qr =>
    obtain ⟨qv, qrest⟩ := qr
    simp only [hq] at hc
    exact quoted_string_image hq c hc
  | none =>
    simp only [hq] at hc
    exact qsafe_of_safe (mem_takeWhile hc)

theorem param_image {s : Str} {kv : Str × Str} {r : Str}
    (h : parser.param s = some (kv, r)) : wfParamI kv := by
  unfold parser.param at h
  cases htk : parser.token1 parser.iana_char s with
  | none =>
    rw [htk] at h
    exact absurd h (by simp)
  | some kr =>
    obtain ⟨k, s1⟩ := kr
    obtain ⟨hkne, hkall, hksplit⟩ := token1_image htk
    simp only [htk] at h
    split at h
    · rename_i heq0 s2
      rw [Option.some.injEq, Prod.mk.injEq] at h
      obtain ⟨h1, h2⟩ := h
      subst h1
      exact ⟨⟨hkne, hkall⟩, param_value_image s2⟩
    · rw [Option.some.injEq, Prod.mk.injEq] at h
      obtain ⟨h1, h2⟩ := h
      subst h1
      exact ⟨⟨hkne, hkall⟩, fun c hc => absurd hc (by simp)⟩

theorem paramsF_image :
    ∀ (fuel : Nat) (s : Str), ∀ kv ∈ (parser.paramsF fuel s).1, wfParamI kv := by
  intro fuel
  induction fuel with
  | zero => intro s kv hkv; simp [parser.paramsF] at hkv
  | succ f ih =>
    intro s kv hkv
    cases s with
    | nil => simp [parser.paramsF] at hkv
    | cons c s1 =>
      rw [parser.paramsF] at hkv
      split at hkv
      · split at hkv
        · rename_i kvp s2 hp
          rcases List.mem_cons.mp hkv with rfl | h2
          · exact param_image hp
          · exact ih s2 kv h2
        · simp at hkv
      · simp at hkv

theorem params_image (s : Str) :
    ∀ kv ∈ (parser.params s).1, wfParamI kv :=
  paramsF_image s.length s

theorem group_opt_image {s g : Str}
    (h : (parser.group_opt s).1 = some g) : ianaStr g := by
  unfold parser.group_opt at h
  split at h
  · rename_i g0 s1 htk
    split at h
    · rename_i s2 heq
      simp only at h
      rw [Option.some.injEq] at h
      subst h
      exact ⟨(token1_image htk).1, (token1_image htk).2.1⟩
    · simp at h
  · simp at h

theorem group_opt_none_snd {s : Str}
    (h : (parser.group_opt s).1 = none) : (parser.group_opt s).2 = s := by
  unfold parser.group_opt at h ⊢
  split at h
  · split at h
    · simp at h
    · rfl
  · rfl

theorem eols_trailing (s : Str) :
    parser.eols (parser.trailing s) = none := by
  induction s with
  | nil => rfl
  | cons c cs ih =>
    unfold parser.trailing
    rw [List.dropWhile_cons]
    cases hq : (parser.eol_char c || parser.ws_char c) with
    | true =>
      simp only [if_true]
      exact ih
    | false =>
      simp only [Bool.false_eq_true, if_false]
      have hc : parser.eol_char c = false := by
        cases he : parser.eol_char c with
        | false => rfl
        | true => rw [he] at hq; exact absurd hq (by simp)
      exact eols_none (Or.inr ⟨c, cs, rfl, hc⟩)

theorem insertKV_mem :
    ∀ (m : List (Str × Str)) (k v : Str) (kv : Str × Str),
    kv ∈ insertKV m k v → kv ∈ m ∨ kv = (k, v) := by
  intro m k v
  induction m with
  | nil =>
    intro kv h
    simp [insertKV] at h
    exact Or.inr h
  | cons b rest ih =>
    intro kv h
    obtain ⟨k0, v0⟩ := b
    unfold insertKV at h
    split at h
    · rename_i heq
      rcases List.mem_cons.mp h with rfl | h2
      · exact Or.inr (by rw [heq])
      · exact Or.inl (List.mem_cons.mpr (Or.inr h2))
    · rcases List.mem_cons.mp h with rfl | h2
      · exact Or.inl (by simp)
      · rcases ih kv h2 with h3 | h3
        · exact Or.inl (by simp [h3])
        · exact Or.inr h3

theorem insertKV_fst :
    ∀ (m : List (Str × Str)) (k v : Str),
    (k ∈ m.map Prod.fst ∧
      (insertKV m k v).map Prod.fst = m.map Prod.fst) ∨
    (k ∉ m.map Prod.fst ∧
      (insertKV m k v).map Prod.fst = m.map Prod.fst ++ [k]) := by
  intro m k v
  induction m with
  | nil => exact Or.inr ⟨by simp, by simp [insertKV]⟩
  | cons b rest ih =>
    obtain ⟨k0, v0⟩ := b
    unfold insertKV
    split
    · rename_i heq
      exact Or.inl ⟨by simp [heq], by simp⟩
    · rename_i hne
      rcases ih with ⟨h1, h2⟩ | ⟨h1, h2⟩
      · exact Or.inl ⟨by simp [h1], by simp [h2]⟩
      · refine Or.inr ⟨?_, by simp [h2]⟩
        simp only [List.map_cons, List.mem_cons]
        push_neg
        exact ⟨fun hh => hne hh.symm, h1⟩

theorem insertKV_nodup (m : List (Str × Str)) (k v : Str)
    (h : (m.map Prod.fst).Nodup) :
    ((insertKV m k v).map Prod.fst).Nodup := by
  rcases insertKV_fst m k v with ⟨h1, h2⟩ | ⟨h1, h2⟩
  · rw [h2]; exact h
  · rw [h2]
    simp [List.nodup_append, h, h1]

theorem buildMap_foldl_mem :
    ∀ (ps : List (Str × Str)) (m : List (Str × Str)) (kv : Str × Str),
    kv ∈ ps.foldl (fun m2 kv2 => insertKV m2 kv2.1 kv2.2) m →
    kv ∈ m ∨ kv ∈ ps := by
  intro ps
  induction ps with
  | nil => intro m kv h; exact Or.inl h
  | cons kv0 ps1 ih =>
    intro m kv h
    rw [List.foldl_cons] at h
    rcases ih _ kv h with h2 | h2
    · rcases insertKV_mem m kv0.1 kv0.2 kv h2 with h3 | h3
      · exact Or.inl h3
      · exact Or.inr (List.mem_cons.mpr (Or.inl h3))
    · exact Or.inr (List.mem_cons.mpr (Or.inr h2))

theorem buildMap_mem {ps : List (Str × Str)} {kv : Str × Str}
    (h : kv ∈ buildMap ps) : kv ∈ ps := by
  rcases buildMap_foldl_mem ps [] kv h with h2 | h2
  · simp at h2
  · exact h2

theorem buildMap_foldl_nodup :
    ∀ (ps : List (Str × Str)) (m : List (Str × Str)),
    (m.map Prod.fst).Nodup →
    ((ps.foldl (fun m2 kv2 => insertKV m2 kv2.1 kv2.2) m).map
      Prod.fst).Nodup := by
  intro ps
  induction ps with
  | nil => intro m h; exact h
  | cons kv0 ps1 ih =>
    intro m h
    rw [List.foldl_cons]
    exact ih _ (insertKV_nodup m kv0.1 kv0.2 h)

theorem buildMap_nodup (ps : List (Str × Str)) :
    ((buildMap ps).map Prod.fst).Nodup :=
  buildMap_foldl_nodup ps [] (by simp)

theorem insertKV_ne_nil (m : List (Str × Str)) (k v : Str) :
    insertKV m k v ≠ [] := by
  cases m with
  | nil => simp [insertKV]
  | cons b rest =>
    obtain ⟨k0, v0⟩ := b
    unfold insertKV
    split
    · simp
    · simp

theorem buildMap_foldl_ne_nil :
    ∀ (ps : List (Str × Str)) (m : List (Str × Str)), m ≠ [] →
    ps.foldl (fun m2 kv2 => insertKV m2 kv2.1 kv2.2) m ≠ [] := by
  intro ps
  induction ps with
  | nil => intro m h; exact h
  | cons kv0 ps1 ih =>
    intro m h
    rw [List.foldl_cons]
    exact ih _ (insertKV_ne_nil m kv0.1 kv0.2)

theorem buildMap_ne_nil {ps : List (Str × Str)} (h : ps ≠ []) :
    buildMap ps ≠ [] := by
  cases ps with
  | nil => exact absurd rfl h
  | cons kv0 ps1 =>
    unfold buildMap
    rw [List.foldl_cons]
    exact buildMap_foldl_ne_nil ps1 _ (insertKV_ne_nil [] kv0.1 kv0.2)

theorem pushProp_ne_nil (m : List (Str × List Property)) (k : Str)
    (v : Property) : pushProp m k v ≠ [] := by
  cases m with
  | nil => simp [pushProp]
  | cons b rest =>
    obtain ⟨k0, ps0⟩ := b
    unfold pushProp
    split
    · simp
    · simp

theorem foldProps_ne_nil :
    ∀ (ps : List (Str × Property)) (m : List (Str × List Property)),
    m ≠ [] → ps.foldl (fun m2 kp => pushProp m2 kp.1 kp.2) m ≠ [] := by
  intro ps
  induction ps with
  | nil => intro m h; exact h
  | cons kp ps1 ih =>
    intro m h
    rw [List.foldl_cons]
    exact ih _ (pushProp_ne_nil m kp.1 kp.2)

theorem foldProps_ne_nil_of_ne {ps : List (Str × Property)} (h : ps ≠ []) :
    ps.foldl (fun m2 kp => pushProp m2 kp.1 kp.2) [] ≠ [] := by
  cases ps with
  | nil => exact absurd rfl h
  | cons kp ps1 =>
    rw [List.foldl_cons]
    exact foldProps_ne_nil ps1 _ (pushProp_ne_nil [] kp.1 kp.2)

theorem pushProp_fst :
    ∀ (m : List (Str × List Property)) (k : Str) (v : Property),
    (k ∈ m.map Prod.fst ∧
      (pushProp m k v).map Prod.fst = m.map Prod.fst) ∨
    (k ∉ m.map Prod.fst ∧
      (pushProp m k v).map Prod.fst = m.map Prod.fst ++ [k]) := by
  intro m k v
  induction m with
  | nil => exact Or.inr ⟨by simp, by simp [pushProp]⟩
  | cons b rest ih =>
    obtain ⟨k0, ps0⟩ := b
    unfold pushProp
    split
    · rename_i heq
      exact Or.inl ⟨by simp [heq], by simp⟩
    · rename_i hne
      rcases ih with ⟨h1, h2⟩ | ⟨h1, h2⟩
      · exact Or.inl ⟨by simp [h1], by simp [h2]⟩
      · refine Or.inr ⟨?_, by simp [h2]⟩
        simp only [List.map_cons, List.mem_cons]
        push_neg
        exact ⟨fun hh => hne hh.symm, h1⟩

theorem pushProp_nodup (m : List (Str × List Property)) (k : Str)
    (v : Property) (h : (m.map Prod.fst).Nodup) :
    ((pushProp m k v).map Prod.fst).Nodup := by
  rcases pushProp_fst m k v with ⟨h1, h2⟩ | ⟨h1, h2⟩
  · rw [h2]; exact h
  · rw [h2]
    simp [List.nodup_append, h, h1]

theorem foldProps_nodup :
    ∀ (ps : List (Str × Property)) (m : List (Str × List Property)),
    (m.map Prod.fst).Nodup →
    ((ps.foldl (fun m2 kp => pushProp m2 kp.1 kp.2) m).map
      Prod.fst).Nodup := by
  intro ps
  induction ps with
  | nil => intro m h; exact h
  | cons kp ps1 ih =>
    intro m h
    rw [List.foldl_cons]
    exact ih _ (pushProp_nodup m kp.1 kp.2 h)

theorem foldProps_nodup_nil (ps : List (Str × Property)) :
    ((ps.foldl (fun m2 kp => pushProp m2 kp.1 kp.2) []).map
      Prod.fst).Nodup :=
  foldProps_nodup ps [] (by simp)

theorem pushProp_wf (Q : Str → Property → Prop) (k : Str) (v : Property)
    (hv : Q k v) :
    ∀ (m : List (Str × List Property)),
    (∀ b ∈ m, b.2 ≠ [] ∧ ∀ p ∈ b.2, Q b.1 p) →
    ∀ b ∈ pushProp m k v, b.2 ≠ [] ∧ ∀ p ∈ b.2, Q b.1 p := by
  intro m
  induction m with
  | nil =>
    intro _ b hb
    simp [pushProp] at hb
    subst hb
    refine ⟨by simp, ?_⟩
    intro p hp
    simp at hp
    subst hp
    exact hv
  | cons b0 rest ih =>
    intro hm b hb
    obtain ⟨k0, ps0⟩ := b0
    unfold pushProp at hb
    split at hb
    · rename_i heq
      rcases List.mem_cons.mp hb with rfl | h2
      · have hm0 := hm (k0, ps0) (by simp)
        refine ⟨by simp, ?_⟩
        intro p hp
        rcases List.mem_append.mp hp with hp2 | hp2
        · exact hm0.2 p hp2
        · simp at hp2
          subst hp2
          rw [heq]
          exact hv
      · exact hm b (by simp [h2])
    · rcases List.mem_cons.mp hb with rfl | h2
      · exact hm (k0, ps0) (by simp)
      · exact ih (fun b2 hb2 => hm b2 (by simp [hb2])) b h2

theorem foldProps_wf (Q : Str → Property → Prop) :
    ∀ (ps : List (Str × Property)) (m : List (Str × List Property)),
    (∀ kp ∈ ps, Q kp.1 kp.2) →
    (∀ b ∈ m, b.2 ≠ [] ∧ ∀ p ∈ b.2, Q b.1 p) →
    ∀ b ∈ ps.foldl (fun m2 kp => pushProp m2 kp.1 kp.2) m,
      b.2 ≠ [] ∧ ∀ p ∈ b.2, Q b.1 p := by
  intro ps
  induction ps with
  | nil => intro m hps hm b hb; exact hm b hb
  | cons kp ps1 ih =>
    intro m hps hm b hb
    rw [List.foldl_cons] at hb
    exact ih _ (fun kp2 h2 => hps kp2 (by simp [h2]))
      (pushProp_wf Q kp.1 kp.2 (hps kp (by simp)) m hm) b hb

theorem paramsF_nil_snd :
    ∀ (fuel : Nat) (s : Str), (parser.paramsF fuel s).1 = [] →
    (parser.paramsF fuel s).2 = s := by
  intro fuel s
  cases fuel with
  | zero => intro _; rfl
  | succ f =>
    cases s with
    | nil => intro _; rfl
    | cons c s1 =>
      rw [parser.paramsF]
      split
      · split
        · intro h
          simp at h
        · intro _; rfl
      · intro _; rfl

theorem params_nil_snd (s : Str) (h : (parser.params s).1 = []) :
    (parser.params s).2 = s :=
  paramsF_nil_snd s.length s h

theorem prop_image {s : Str} {k : Str} {p : Property} {rest : Str}
    (h : parser.prop s = some ((k, p), rest)) : wfProp wfParamI k p := by
  unfold parser.prop at h
  split at h
  · exact absurd h (by simp)
  · rename_i hguard
    cases htk : parser.token1 parser.iana_char (parser.group_opt s).2 with
    | none =>
      rw [htk] at h
      exact absurd h (by simp)
    | some kr =>
      obtain ⟨k0, s2⟩ := kr
      simp only [htk] at h
      split at h
      · rename_i s4 hps2
        cases hval : parser.value s4 with
        | none =>
          rw [hval] at h
          exact absurd h (by simp)
        | some vr =>
          obtain ⟨v, s5⟩ := vr
          simp only [hval] at h
          rw [Option.some.injEq, Prod.mk.injEq] at h
          obtain ⟨h1, h2⟩ := h
          rw [Prod.mk.injEq] at h1
          obtain ⟨hk0, hp0⟩ := h1
          subst hk0
          subst hp0
          obtain ⟨hvne, hvnoeol, hvsplit⟩ := value_image hval
          obtain ⟨hk0ne, hk0all, hk0split⟩ := token1_image htk
          refine ⟨⟨hk0ne, hk0all⟩, hvne, hvnoeol, ?_, buildMap_nodup _, ?_⟩
          · intro kv hkv
            exact params_image s2 kv (buildMap_mem hkv)
          · cases hg : (parser.group_opt s).1 with
            | some g => exact group_opt_image hg
            | none =>
              intro hkBE hpse
              have hps_nil : (parser.params s2).1 = [] := by
                by_contra hne
                exact buildMap_ne_nil hne hpse
              have hs2eq : (parser.params s2).2 = s2 := params_nil_snd s2 hps_nil
              rw [hps2] at hs2eq
              have hsnd := group_opt_none_snd hg
              rw [hsnd] at hk0split
              rw [← hs2eq] at hk0split
              rcases hkBE with rfl | rfl
              · rw [show ("BEGIN".toList : Str) ++ ':' :: s4 =
                  "BEGIN:".toList ++ s4 from rfl] at hk0split
                rw [hk0split] at hguard
                rw [isPrefixOf_self_append] at hguard
                simp at hguard
              · rw [show ("END".toList : Str) ++ ':' :: s4 =
                  "END:".toList ++ s4 from rfl] at hk0split
                rw [hk0split] at hguard
                rw [isPrefixOf_self_append] at hguard
                simp at hguard
      · exact absurd h (by simp)

theorem props_tailF_image :
    ∀ (fuel : Nat) (s : Str), ∀ kp ∈ (parser.props_tailF fuel s).1,
      wfProp wfParamI kp.1 kp.2 := by
  intro fuel
  induction fuel with
  | zero => intro s kp hkp; simp [parser.props_tailF] at hkp
  | succ f ih =>
    intro s kp hkp
    rw [parser.props_tailF] at hkp
    split at hkp
    · simp at hkp
    · split at hkp
      · simp at hkp
      · rename_i kp0 s2 hp
        rcases List.mem_cons.mp hkp with rfl | h2
        · obtain ⟨kk, pp⟩ := kp
          exact prop_image hp
        · exact ih s2 kp h2

theorem props_image {s : Str} {L : List (Str × Property)} {rest : Str}
    (h : parser.props s = some (L, rest)) :
    L ≠ [] ∧ ∀ kp ∈ L, wfProp wfParamI kp.1 kp.2 := by
  unfold parser.props at h
  split at h
  · exact absurd h (by simp)
  · rename_i kp0 s1 hp
    rw [Option.some.injEq, Prod.mk.injEq] at h
    obtain ⟨h1, h2⟩ := h
    subst h1
    refine ⟨by simp, ?_⟩
    intro kp hkp
    rcases List.mem_cons.mp hkp with rfl | h3
    · obtain ⟨kk, pp⟩ := kp
      exact prop_image hp
    · exact props_tailF_image s1.length s1 kp h3

theorem component_end_rest {s v r : Str}
    (h : parser.component_end s = some (v, r)) : parser.eols r = none := by
  unfold parser.component_end at h
  split at h
  · split at h
    · rw [Option.some.injEq, Prod.mk.injEq] at h
      obtain ⟨h1, h2⟩ := h
      rw [← h2]
      exact eols_trailing _
    · exact absurd h (by simp)
  · exact absurd h (by simp)

theorem component_begin_image {s nm r : Str}
    (h : parser.component_begin s = some (nm, r)) :
    nm ≠ [] ∧ noEolStr nm := by
  unfold parser.component_begin at h
  split at h
  · split at h
    · rename_i v1 s1 hval
      rw [Option.some.injEq, Prod.mk.injEq] at h
      obtain ⟨h1, h2⟩ := h
      subst h1
      obtain ⟨hv1, hv2, hv3⟩ := value_image hval
      exact ⟨hv1, hv2⟩
    · exact absurd h (by simp)
  · exact absurd h (by simp)

theorem components_tail_eols_none (fuel : Nat) {s : Str}
    (h : parser.eols s = none) :
    parser.components_tail fuel s = ([], s) := by
  cases fuel with
  | zero => rfl
  | succ f =>
    rw [parser.components_tail, h]

mutual

theorem component_image :
    ∀ (fuel : Nat) (s : Str) (c : Component) (rest : Str),
    parser.component fuel s = some (c, rest) →
    WFC wfParamI c ∧ parser.eols rest = none
  | 0, s, c, rest, h => by
    rw [parser.component] at h
    exact absurd h (by simp)
  | fuel + 1, s, c, rest, h => by
    rw [parser.component] at h
    split at h
    · exact absurd h (by simp)
    · rename_i nm s1 hcb
      split at h
      · exact absurd h (by simp)
      · rename_i ps s2 hps
        rcases hcomps : parser.components fuel s2 with ⟨cs2, crest⟩
        rw [hcomps] at h
        simp only [] at h
        split at h
        · exact absurd h (by simp)
        · rename_i v s4 hce
          rw [Option.some.injEq, Prod.mk.injEq] at h
          obtain ⟨h1, h2⟩ := h
          subst h1
          subst h2
          constructor
          · rw [WFC]
            obtain ⟨hLne, hLwf⟩ := props_image hps
            obtain ⟨hnm1, hnm2⟩ := component_begin_image hcb
            obtain ⟨hlen, hwfl⟩ := components_image fuel s2 cs2 crest hcomps
            exact ⟨hnm1, hnm2, foldProps_ne_nil_of_ne hLne,
              foldProps_nodup_nil ps,
              foldProps_wf (wfProp wfParamI) ps []
                (fun kp hk => hLwf kp hk) (by simp),
              hlen, hwfl⟩
          · exact component_end_rest hce

theorem components_image :
    ∀ (fuel : Nat) (s : Str) (cs : List Component) (rest : Str),
    parser.components fuel s = (cs, rest) →
    cs.length ≤ 1 ∧ WFCList wfParamI cs
  | 0, s, cs, rest, h => by
    rw [parser.components] at h
    rw [Prod.mk.injEq] at h
    obtain ⟨h1, h2⟩ := h
    subst h1
    exact ⟨by simp, trivial⟩
  | fuel + 1, s, cs, rest, h => by
    rw [parser.components] at h
    split at h
    · rw [Prod.mk.injEq] at h
      obtain ⟨h1, h2⟩ := h
      subst h1
      exact ⟨by simp, trivial⟩
    · rename_i c1 s1 hcomp
      obtain ⟨hwfc1, heolsnone⟩ := component_image fuel s c1 s1 hcomp
      rw [components_tail_eols_none fuel heolsnone] at h
      rw [Prod.mk.injEq] at h
      obtain ⟨h1, h2⟩ := h
      subst h1
      constructor
      · simp
      · exact ⟨hwfc1, trivial⟩

end

mutual

theorem WFC_safe :
    ∀ (c : Component), WFC wfParamI c → paramsSafeB c = true →
    WFC wfParamS c
  | .mk nm props subs, hw, hs => by
    rw [WFC] at hw ⊢
    rw [paramsSafeB] at hs
    rw [Bool.and_eq_true] at hs
    obtain ⟨h1, h2, h3, h4, h5, h6, h7⟩ := hw
    refine ⟨h1, h2, h3, h4, ?_, h6, WFCList_safe subs h7 hs.2⟩
    intro b hb
    refine ⟨(h5 b hb).1, ?_⟩
    intro p hp
    have hwp := (h5 b hb).2 p hp
    have hsafe : ∀ kv ∈ p.params, ∀ ch ∈ kv.2,
        (!(ch = ';') && !(ch = ':')) = true := by
      have hb2 := (List.all_eq_true.mp hs.1) b hb
      have hp2 := (List.all_eq_true.mp hb2) p hp
      intro kv hkv ch hch
      exact (List.all_eq_true.mp ((List.all_eq_true.mp hp2) kv hkv)) ch hch
    obtain ⟨w1, w2, w3, w4, w5, w6⟩ := hwp
    refine ⟨w1, w2, w3, ?_, w5, w6⟩
    intro kv hkv
    refine ⟨(w4 kv hkv).1, ?_⟩
    intro ch hch
    have hq := (w4 kv hkv).2 ch hch
    have hns := hsafe kv hkv ch hch
    rw [Bool.and_eq_true] at hns
    unfold parser.safe_char
    rw [hns.1, hns.2, hq]
    rfl

theorem WFCList_safe :
    ∀ (l : List Component), WFCList wfParamI l → paramsSafeBList l = true →
    WFCList wfParamS l
  | [], h, _ => h
  | c :: cs, h, hs => by
    rw [WFCList] at h ⊢
    rw [paramsSafeBList] at hs
    rw [Bool.and_eq_true] at hs
    exact ⟨WFC_safe c h.1 hs.1, WFCList_safe cs h.2 hs.2⟩

end

mutual

theorem needFuel_le : ∀ c : Component, needFuel c ≤ (writeNF c).length
  | .mk nm props subs => by
    rw [show needFuel (Component.mk nm props subs) =
      2 + needFuelList subs from rfl]
    rw [writeNF]
    have h1 : ("BEGIN:".toList).length = 6 := rfl
    have h2 : ("END:".toList).length = 4 := rfl
    have h3 : (['\r', '\n'] : Str).length = 2 := rfl
    have h4 := needFuelList_le subs
    simp only [List.length_append, h1, h2, h3]
    omega

theorem needFuelList_le :
    ∀ l : List Component, needFuelList l ≤ (writeNFSubs l).length
  | [] => by
    rw [show needFuelList [] = 0 from rfl]
    exact Nat.zero_le _
  | c :: cs => by
    rw [show needFuelList (c :: cs) = needFuel c + needFuelList cs from rfl]
    rw [show writeNFSubs (c :: cs) = writeNF c ++ writeNFSubs cs from rfl]
    rw [List.length_append]
    exact Nat.add_le_add (needFuel_le c) (needFuelList_le cs)

end

theorem parse_image {d : Str} {c : Component}
    (h : parse_component d = Except.ok c) : WFC wfParamI c := by
  unfold parse_component at h
  simp only [] at h
  split at h
  · rename_i c0 hcomp
    rw [Except.ok.injEq] at h
    subst h
    exact (component_image _ _ _ _ hcomp).1
  · exact absurd h (by simp)
  · exact absurd h (by simp)

/-- C1 (amended): for every document that parses successfully into a
component in which no parameter value contains a semicolon or a colon,
serializing the component with write_component and re-parsing succeeds
and yields a component structurally equivalent to the original: same
name, same set of property names, same per-name sequences of unescaped
values, and pairwise structurally equivalent subcomponent sequences.
The unamended claim fails when a quoted parameter value contains a
colon, because write_component emits parameter values without quotes,
shifting the value boundary on re-parse. -/
theorem C1_roundtrip_amended (d : Str) (c : Component)
    (hparse : parse_component d = Except.ok c)
    (hsafe : paramsSafeB c = true) :
    ∃ c2, parse_component (write_component c) = Except.ok c2 ∧
      equivb c2 c = true := by
  have hwI : WFC wfParamI c := parse_image hparse
  have hwS : WFC wfParamS c := WFC_safe c hwI hsafe
  have huw : unfold_lines (write_component c) = writeNF c := unfold_write c hwI
  refine ⟨c, ?_, equivb_refl c⟩
  unfold parse_component
  rw [huw]
  have hfuel : needFuel c ≤ (writeNF c).length + 1 := by
    have := needFuel_le c
    omega
  have hrel := reload_component c hwS ((writeNF c).length + 1) hfuel []
    headOk_nil
  rw [List.append_nil] at hrel
  simp only [hrel]

/-- Witness for the amended round-trip claim at the concrete Forrest
Gump vCard. -/
theorem C1_roundtrip_amended_witness :
    (parse_component dForrest = Except.ok cForrest ∧
      paramsSafeB cForrest = true) ∧
    ∃ c2, parse_component (write_component cForrest) = Except.ok c2 ∧
      equivb c2 cForrest = true :=
  ⟨⟨rfl, by decide⟩,
    C1_roundtrip_amended dForrest cForrest rfl (by decide)⟩
